import Mathlib

/-
Verification of the no-migration time-integration engine of the `moments`
repository (`moments/Integration_nomig.py`): the two top-level integrators
`integrate_nomig` and `integrate_neutral`, their frozen-population parameter
normalization, the mutation-injection builder `_calcB`, and the
dimensional-splitting driver `_update_step1`.

Conventions of the embedding:
* exact arithmetic: all floats become `ℚ`;
* the single-population (rank-1) instance of the time loop is embedded
  concretely (state vectors `Fin d → ℚ`, operators `Matrix (Fin d) (Fin d) ℚ`);
  the control flow (step-size proposal, midpoint size evaluation, the
  halving retry loop, the rebuild decision, the positivity checks) is shared
  verbatim by all ranks in the source and is transcribed line by line;
* `raise ValueError` becomes `Except.error`; the time loop, a `while` in the
  source, is run on explicit fuel, fuel exhaustion returning the current
  state (termination with exact arrival at the target time is proved
  separately);
* external collaborators that are not part of this repository snapshot
  (`Integration.compute_dt`, `Numerics.compute_N_effective`,
  `LinearSystem_1D.calcD/calcD_dense/calcS/calcS2`, `Tridiag_solve`,
  `Reversible._calcB_FB`, `scipy.sparse.linalg.factorized`) are modelled from
  the spec, each with a doc comment saying so; where the spec fixes no
  formula they are parameters of the development.
-/

/-- Vectors indexed by a rank-1 frequency-spectrum axis of length `d`. -/
abbrev Vec (d : ℕ) := Fin d → ℚ

/-- Square per-axis operators of size `d × d`. -/
abbrev Mat (d : ℕ) := Matrix (Fin d) (Fin d) ℚ

/-- The only fatal error of the integrators: `raises ValueError("All
population sizes must be positive")`. -/
inductive Err where
  | nonPositiveSize : Err
deriving DecidableEq, Repr

/-- A scalar integrator parameter that is either a constant or a function of
time, mirroring the source's `callable(x)` dispatch for one population. -/
inductive Param where
  | const : ℚ → Param
  | func : (ℚ → ℚ) → Param

/-- Evaluation of a `Param` at a time: a constant evaluates to itself,
mirroring `x(t) if callable(x) else x` in the source. -/
def Param.evalAt : Param → ℚ → ℚ
  | .const c, _ => c
  | .func f, t => f t

/-- Modelled from the spec: `Integration.compute_dt`, the "external
stability-bound function of current population sizes and selection/dominance
parameters" (spec §4.3).  The module `moments/Integration.py` is not part of
this snapshot.  The model makes the bound proportional to the population size
with a selection correction that vanishes at zero selection; the claims below
use only that it is positive for positive sizes and independent of dominance
when selection is zero. -/
def compute_dt (N s h : ℚ) : ℚ :=
  N / (4 * (1 + |s| * (|h| + |1 - 2 * h|)))

/-- Coefficient `k (d-1-k)` of the Wright-Fisher drift stencil at bin `k`
(zero at both monomorphic corners). -/
def driftCoeff (d k : ℕ) : ℚ := (k * (d - 1 - k) : ℕ)

/-- Modelled from the spec: the per-axis drift operator produced by the
external collaborators `LinearSystem_1D.calcD` (sparse, general path) and
`LinearSystem_1D.calcD_dense` (dense, neutral path), which are not part of
this snapshot.  Per spec §3 it is the "tridiagonal-like matrix representing
the discretized diffusion (Wright-Fisher drift) generator", and per spec §8
drift "redistributes but does not create or destroy mass": column `k` of the
generator carries the flux stencil `(+1, -2, +1)` weighted by
`k (d-1-k)`, so every column sums to zero and the corner columns vanish. -/
def calcD (d : ℕ) : Mat d :=
  ∑ k : Fin d,
    if h : 0 < (k : ℕ) ∧ (k : ℕ) + 1 < d then
      driftCoeff d k •
        (Matrix.stdBasisMatrix ⟨(k : ℕ) - 1, by have := k.isLt; omega⟩ k 1 +
          Matrix.stdBasisMatrix k k (-2) +
          Matrix.stdBasisMatrix ⟨(k : ℕ) + 1, h.2⟩ k 1)
    else 0

/-- Row-indexed subdiagonal of a matrix (entry `M[i][i-1]`, junk `0` in row
`0`), modelling the first component of the external `Tridiag_solve.mat_to_diag`. -/
def lowerOf {d : ℕ} (M : Mat d) : Vec d := fun i =>
  if _h : 0 < (i : ℕ) then
    M i ⟨(i : ℕ) - 1, Nat.lt_of_le_of_lt (Nat.sub_le _ _) i.isLt⟩
  else 0

/-- Row-indexed superdiagonal of a matrix (entry `M[i][i+1]`, junk `0` in the
last row), modelling the third component of `Tridiag_solve.mat_to_diag`. -/
def upperOf {d : ℕ} (M : Mat d) : Vec d := fun i =>
  if h : (i : ℕ) + 1 < d then M i ⟨(i : ℕ) + 1, h⟩ else 0

/-- The tridiagonal matrix assembled from a subdiagonal `a`, a main diagonal
`b` and a superdiagonal `c` (all row-indexed): the linear system that the
external `Tridiag_solve.factor`/`Tridiag_solve.solve` pair factorizes and
solves. -/
def tridiagOf {d : ℕ} (a b c : Vec d) : Mat d := fun i j =>
  if (i : ℕ) = (j : ℕ) + 1 then a i
  else if i = j then b i
  else if (j : ℕ) = (i : ℕ) + 1 then c i
  else 0

/-- Rank-1 instance of the mutation-injection builder `_calcB`
(Integration_nomig.py lines 33-42): for `dims = [d]` the loop writes
`B[1] = (dims[0] - 1) * u[0]` and leaves every other entry zero. -/
def calcB1 (d : ℕ) (u : ℚ) : Vec d := fun i =>
  if (i : ℕ) = 1 then ((d : ℚ) - 1) * u else 0

/-- Total mass of a rank-1 spectrum: the sum of all entries. -/
def totalMass {d : ℕ} (v : Vec d) : ℚ := ∑ i, v i

/-- Mass sitting in the two monomorphic corner bins `0` and `d-1`. -/
def cornerMass {d : ℕ} (v : Vec d) : ℚ :=
  ∑ i ∈ Finset.univ.filter (fun i : Fin d => (i : ℕ) = 0 ∨ (i : ℕ) = d - 1), v i

/-- Mass in the polymorphic (non-corner) bins. -/
def interiorMass {d : ℕ} (v : Vec d) : ℚ := totalMass v - cornerMass v

/-- Frozen-population fix of the population-size argument, rank-1 instance of
Integration_nomig.py lines 500-506 / 722-728 (`np.any(frozen)` is `frozen`
itself for one population): a frozen population's size is forced to the
constant `1e40`, in the vector or in every evaluation of a callable. -/
def fixNp (frozen : Bool) (Np : Param) : Param :=
  if frozen then
    match Np with
    | .const _ => .const (10 ^ 40)
    | .func f => .func fun t => f t * 0 + 10 ^ 40
  else Np

/-- Frozen-population fix of the selection argument (`integrate_nomig` only),
rank-1 instance of lines 493-499: frozen selection is forced to zero. -/
def fixS (frozen : Bool) (s : Param) : Param :=
  if frozen then
    match s with
    | .const _ => .const 0
    | .func g => .func fun t => g t * 0
  else s

/-- Frozen-population fix of the (forward) mutation rate, rank-1 instance of
lines 507-512 / 729-734: `u *= 1 - frozen`. -/
def fixU (frozen : Bool) (u : ℚ) : ℚ := if frozen then u * 0 else u

/-- Frozen-population fix of the backward mutation rate: `v *= 1 - frozen`,
applied only in the finite-genome model (lines 510-512 / 732-734). -/
def fixV (frozen : Bool) (fg : Bool) (v : ℚ) : ℚ :=
  if frozen then (if fg then v * 0 else v) else v

/-- Output of the step-halving retry controller: the accepted step, the
midpoint population size and effective size, the number of halvings
performed, and whether the "large change size" diagnostic was printed. -/
structure HalveOut where
  dt : ℚ
  N : ℚ
  Neff : ℚ
  k : ℕ
  warn : Bool
deriving DecidableEq

/-- Body of the inner retry loop of both integrators (Integration_nomig.py
lines 588-609 and 776-797, identical blocks): while the relative size change
exceeds `acceptable_change = 0.5`, halve `dt`, re-evaluate the size at the
new step midpoint (raising on a non-positive value), recompute the effective
size, and after the `n_iter_max = 10`-th halving print the diagnostic and
break.  `cN` models the external `Numerics.compute_N_effective`.  The
recursion is structural on the shadow counter `fuel`, which the `halveLoop`
wrapper fixes at `n_iter_max = 10`; the `fuel = 0` alternative (break without
testing the counter) is reachable only with `niter + 1 ≥ 10`, where the
`10 ≤ niter + 1` break of the source fires anyway, because `10 ≤ fuel + niter`
is invariant under the recursion. -/
def halveGo (f : ℚ → ℚ) (cN : (ℚ → ℚ) → ℚ → ℚ → ℚ) (t Nold : ℚ) :
    ℕ → ℚ → ℚ → ℚ → ℕ → Except Err HalveOut
  | 0, dt, N, Neff, niter =>
    if 1 / 2 < |N - Nold| / Nold then
      let dt' := dt / 2
      let N' := f ((t + dt') / 2)
      if N' ≤ 0 then .error .nonPositiveSize
      else
        let Neff' := cN f (t / 2) ((t + dt') / 2)
        .ok ⟨dt', N', Neff', niter + 1, true⟩
    else .ok ⟨dt, N, Neff, niter, false⟩
  | fuel + 1, dt, N, Neff, niter =>
    if 1 / 2 < |N - Nold| / Nold then
      let dt' := dt / 2
      let N' := f ((t + dt') / 2)
      if N' ≤ 0 then .error .nonPositiveSize
      else
        let Neff' := cN f (t / 2) ((t + dt') / 2)
        let niter' := niter + 1
        if 10 ≤ niter' then .ok ⟨dt', N', Neff', niter', true⟩
        else halveGo f cN t Nold fuel dt' N' Neff' niter'
    else .ok ⟨dt, N, Neff, niter, false⟩

/-- The inner retry loop, entered with the iteration counter at `niter` (the
integrators start it at `n_iter = 0`). -/
def halveLoop (f : ℚ → ℚ) (cN : (ℚ → ℚ) → ℚ → ℚ → ℚ)
    (t Nold dt N Neff : ℚ) (niter : ℕ) : Except Err HalveOut :=
  halveGo f cN t Nold 10 dt N Neff niter

/-- Step-size proposal of the time loop (lines 566-569 / 765-767):
`dt = min(compute_dt(N, s, h), Tmax * dt_fac)`, then clipped to the remaining
time when `t + dt` would overshoot `Tmax`. -/
def propose_dt (N s h Tmax dt_fac t : ℚ) : ℚ :=
  let dt1 := min (compute_dt N s h) (Tmax * dt_fac)
  if Tmax < t + dt1 then Tmax - t else dt1

/-- Result of the per-step controller: accepted step size, current and
effective population size, and whether the diagnostic fired. -/
structure Ctrl where
  dt : ℚ
  N : ℚ
  Neff : ℚ
  warn : Bool
deriving DecidableEq

/-- The shared per-step size controller (lines 582-609 / 770-797): for a
constant size argument nothing is evaluated; for a callable one the size is
evaluated at the step midpoint (raising on a non-positive value), the
effective size is computed, and the halving retry loop runs. -/
def ctrlCore (cN : (ℚ → ℚ) → ℚ → ℚ → ℚ)
    (t Nold N Neff dt2 : ℚ) : Param → Except Err Ctrl
  | .const _ => .ok ⟨dt2, N, Neff, false⟩
  | .func f =>
    let N1 := f ((t + dt2) / 2)
    if N1 ≤ 0 then .error .nonPositiveSize
    else
      let Ne1 := cN f (t / 2) ((t + dt2) / 2)
      (halveLoop f cN t Nold dt2 N1 Ne1 0).map fun r => ⟨r.dt, r.N, r.Neff, r.warn⟩

/-- Explicit and implicit half-step operators of `integrate_nomig`
(lines 624-639): `D = vd/(4 Neff)`, `S1 = s h vs`, `S2 = s (1-2h) vs2`,
`Q = I + (dt/2)(D+S1+S2)`, and the matrix `I - (dt/2)(D+S1+S2)` handed to the
sparse factorization.  `vsM`/`vs2M` stand for the external Jackknife-closure
selection matrices `ls1.calcS`/`ls1.calcS2`. -/
def buildQS {d : ℕ} (vsM vs2M : Mat d) (dt Neff sNew hNew : ℚ) : Mat d × Mat d :=
  let D := (1 / (4 * Neff)) • calcD d
  let S1 := (sNew * hNew) • vsM
  let S2 := (sNew * (1 - 2 * hNew)) • vs2M
  (1 + (dt / 2) • (D + S1 + S2), 1 - (dt / 2) • (D + S1 + S2))

/-- Call-level inputs of the rank-1 `integrate_nomig` time loop, after
parameter normalization: the (frozen-fixed) size, selection and dominance
arguments, the target time and step factor, the mutation model, and the
modelled external collaborators (`lin_solve` for
`scipy.sparse.linalg.factorized`, `cNeff` for `Numerics.compute_N_effective`,
`vsM`/`vs2M` for the selection operators, `Bfb` for the
`Reversible._calcB_FB` operator). -/
structure Args (d : ℕ) where
  NpopA : Param
  sA : Param
  hA : Param
  Tmax : ℚ
  dt_fac : ℚ
  fg : Bool
  Bvec : Vec d
  Bfb : Mat d
  vsM : Mat d
  vs2M : Mat d
  lin_solve : Mat d → Vec d → Vec d
  cNeff : (ℚ → ℚ) → ℚ → ℚ → ℚ

/-- Loop-carried state of the rank-1 `integrate_nomig` time loop.  `Qm` is
the explicit operator `Q[0]`; `Mi` is the matrix whose factorization is the
implicit solver `slv[0]`.  Before the first iteration both are the (dead)
placeholder `1`: the source builds them inside the loop, and the first
iteration always rebuilds because `t == 0`. -/
structure St (d : ℕ) where
  t : ℚ
  dt : ℚ
  N : ℚ
  Nold : ℚ
  Neff : ℚ
  sOld : ℚ
  hOld : ℚ
  Qm : Mat d
  Mi : Mat d
  sfs : Vec d
  warned : Bool

/-- Controller part of one `integrate_nomig` iteration: the step-size
proposal uses the previous iteration's selection/dominance values (the
variables `s_new`, `h_new` at line 567, equal to `s_old`, `h_old` at that
point). -/
def nomigCtrl {d : ℕ} (A : Args d) (st : St d) : Except Err Ctrl :=
  ctrlCore A.cNeff st.t st.Nold st.N st.Neff
    (propose_dt st.N st.sOld st.hOld A.Tmax A.dt_fac st.t) A.NpopA

/-- State-update part of one `integrate_nomig` iteration (lines 611-659):
evaluate `s_new`, `h_new` at the half-step midpoint, rebuild the operators
exactly when `t == 0` or any of `N`, `dt`, `s_new`, `h_new` differs from the
previous step's value, apply the explicit operator, inject mutations, apply
the implicit solve, and shift the `old` copies. -/
def nomigApply {d : ℕ} (A : Args d) (st : St d) (c : Ctrl) : St d :=
  let sNew := A.sA.evalAt ((st.t + c.dt / 2) / 2)
  let hNew := A.hA.evalAt ((st.t + c.dt / 2) / 2)
  let QM :=
    if st.t = 0 ∨ c.N ≠ st.Nold ∨ c.dt ≠ st.dt ∨ sNew ≠ st.sOld ∨ hNew ≠ st.hOld then
      buildQS A.vsM A.vs2M c.dt c.Neff sNew hNew
    else (st.Qm, st.Mi)
  let x1 := QM.1.mulVec st.sfs
  let sfs' :=
    if A.fg then A.lin_solve QM.2 (x1 + (c.dt • A.Bfb).mulVec x1)
    else A.lin_solve QM.2 (x1 + c.dt • A.Bvec)
  { t := st.t + c.dt, dt := c.dt, N := c.N, Nold := c.N, Neff := c.Neff,
    sOld := sNew, hOld := hNew, Qm := QM.1, Mi := QM.2, sfs := sfs',
    warned := st.warned || c.warn }

/-- One full iteration of the `integrate_nomig` time loop. -/
def nomigStep {d : ℕ} (A : Args d) (st : St d) : Except Err (St d) :=
  (nomigCtrl A st).map (nomigApply A st)

/-- The `while t < Tmax` loop of `integrate_nomig`, on explicit fuel; fuel
exhaustion returns the current state. -/
def nomigLoop {d : ℕ} (A : Args d) : ℕ → St d → Except Err (St d)
  | 0, st => .ok st
  | fuel + 1, st =>
    if st.t < A.Tmax then (nomigStep A st) >>= nomigLoop A fuel else .ok st

/-- Rank-1 `integrate_nomig` (Integration_nomig.py lines 400-664), returning
the full final loop state.  `gammaA`/`hAO` are `None`able, defaulting to zero
selection and `h = 0.5` (lines 438-441); `Tmax = tf * 2` and the initial
`dt = Tmax * dt_fac` (lines 465-466); `u = theta/4` (infinite sites) or
`theta_fd/4` and `v = theta_bd/4` (finite genome, lines 473-486); the frozen
fixes are applied (lines 488-512); the initial size is evaluated at `0` and
checked positive (lines 514-521); then the time loop runs.  The pre-loop
operator assembly (lines 527-553) is dead code — the first iteration always
rebuilds because `t == 0` — so the operator fields start at the placeholder
`1`. -/
def integrate_nomig1_run (d : ℕ)
    (lin_solve : Mat d → Vec d → Vec d) (cNeff : (ℚ → ℚ) → ℚ → ℚ → ℚ)
    (vsM vs2M : Mat d) (calcBFB : ℚ → ℚ → Mat d)
    (sfs0 : Vec d) (Npop : Param) (tf dt_fac : ℚ)
    (gammaA hAO : Option Param) (theta : ℚ)
    (fg : Bool) (theta_fd theta_bd : ℚ) (frozen : Bool) (fuel : ℕ) :
    Except Err (St d) :=
  let s0 := gammaA.getD (.const 0)
  let h0 := hAO.getD (.const (1 / 2))
  let Tmax := tf * 2
  let dt0 := Tmax * dt_fac
  let u0 := if fg then theta_fd / 4 else theta / 4
  let v0 := theta_bd / 4
  let NpF := fixNp frozen Npop
  let sF := fixS frozen s0
  let uF := fixU frozen u0
  let vF := fixV frozen fg v0
  let N0 := NpF.evalAt 0
  if N0 ≤ 0 then .error .nonPositiveSize
  else
    let A : Args d :=
      { NpopA := NpF, sA := sF, hA := h0, Tmax := Tmax, dt_fac := dt_fac,
        fg := fg, Bvec := calcB1 d uF,
        Bfb := if fg then calcBFB uF vF else 0,
        vsM := vsM, vs2M := vs2M, lin_solve := lin_solve, cNeff := cNeff }
    let st0 : St d :=
      { t := 0, dt := dt0, N := N0, Nold := N0, Neff := N0,
        sOld := sF.evalAt 0, hOld := h0.evalAt 0, Qm := 1, Mi := 1,
        sfs := sfs0, warned := false }
    nomigLoop A fuel st0

/-- Rank-1 `integrate_nomig`: the evolved spectrum handed back to the caller
(the `Spectrum` wrapper keeps the entries unchanged). -/
def integrate_nomig1 (d : ℕ)
    (lin_solve : Mat d → Vec d → Vec d) (cNeff : (ℚ → ℚ) → ℚ → ℚ → ℚ)
    (vsM vs2M : Mat d) (calcBFB : ℚ → ℚ → Mat d)
    (sfs0 : Vec d) (Npop : Param) (tf dt_fac : ℚ)
    (gammaA hAO : Option Param) (theta : ℚ)
    (fg : Bool) (theta_fd theta_bd : ℚ) (frozen : Bool) (fuel : ℕ) :
    Except Err (Vec d) :=
  (integrate_nomig1_run d lin_solve cNeff vsM vs2M calcBFB sfs0 Npop tf dt_fac
    gammaA hAO theta fg theta_fd theta_bd frozen fuel).map St.sfs

/-- Call-level inputs of the rank-1 `integrate_neutral` time loop: no
selection/dominance arguments, otherwise as in `Args`. -/
structure ArgsN (d : ℕ) where
  NpopA : Param
  Tmax : ℚ
  dt_fac : ℚ
  fg : Bool
  Bvec : Vec d
  Bfb : Mat d
  lin_solve : Mat d → Vec d → Vec d
  cNeff : (ℚ → ℚ) → ℚ → ℚ → ℚ

/-- Loop-carried state of the rank-1 `integrate_neutral` time loop: the
explicit operator `Q[0]` and the three stored diagonals `A[0]`, `Di[0]`,
`C[0]` of the implicit tridiagonal system.  The diagonal fields start at the
(dead) placeholders of the identity system, rebuilt in the first iteration. -/
structure StN (d : ℕ) where
  t : ℚ
  dt : ℚ
  N : ℚ
  Nold : ℚ
  Neff : ℚ
  Qm : Mat d
  aD : Vec d
  dD : Vec d
  cD : Vec d
  sfs : Vec d
  warned : Bool

/-- Controller part of one `integrate_neutral` iteration: the step-size
proposal calls `Integration.compute_dt(N)` with its selection and dominance
defaults (zero selection, `h = 0.5`). -/
def neutralCtrl {d : ℕ} (A : ArgsN d) (st : StN d) : Except Err Ctrl :=
  ctrlCore A.cNeff st.t st.Nold st.N st.Neff
    (propose_dt st.N 0 (1 / 2) A.Tmax A.dt_fac st.t) A.NpopA

/-- State-update part of one `integrate_neutral` iteration (lines 799-830):
rebuild exactly when `t == 0` or `N` or `dt` changed; the rebuilt pieces are
`D = vd/(4 Neff)`, the tridiagonal bands `A = -(dt/2)(1/(4 Neff)) · sub(vd)`,
`Di = 1 - (dt/2)(1/(4 Neff)) · diag(vd)`, `C = -(dt/2)(1/(4 Neff)) · sup(vd)`
(`ts.factor` precomputes their factorization, a no-op in exact arithmetic),
and `Q = I + (dt/2) D`; then the explicit step, mutation injection and the
tridiagonal solve are applied. -/
def neutralApply {d : ℕ} (A : ArgsN d) (st : StN d) (c : Ctrl) : StN d :=
  let QB :=
    if st.t = 0 ∨ c.N ≠ st.Nold ∨ c.dt ≠ st.dt then
      (1 + (c.dt / 2) • ((1 / (4 * c.Neff)) • calcD d),
        fun i => -(c.dt / 2) * (1 / (4 * c.Neff)) * lowerOf (calcD d) i,
        fun i => 1 - (c.dt / 2) * (1 / (4 * c.Neff)) * calcD d i i,
        fun i => -(c.dt / 2) * (1 / (4 * c.Neff)) * upperOf (calcD d) i)
    else (st.Qm, st.aD, st.dD, st.cD)
  let sfs' :=
    if A.fg then
      A.lin_solve (tridiagOf QB.2.1 QB.2.2.1 QB.2.2.2)
        (QB.1.mulVec st.sfs + (c.dt • A.Bfb).mulVec st.sfs)
    else
      A.lin_solve (tridiagOf QB.2.1 QB.2.2.1 QB.2.2.2)
        (QB.1.mulVec st.sfs + c.dt • A.Bvec)
  { t := st.t + c.dt, dt := c.dt, N := c.N, Nold := c.N, Neff := c.Neff,
    Qm := QB.1, aD := QB.2.1, dD := QB.2.2.1, cD := QB.2.2.2, sfs := sfs',
    warned := st.warned || c.warn }

/-- One full iteration of the `integrate_neutral` time loop. -/
def neutralStep {d : ℕ} (A : ArgsN d) (st : StN d) : Except Err (StN d) :=
  (neutralCtrl A st).map (neutralApply A st)

/-- The `while t < Tmax` loop of `integrate_neutral`, on explicit fuel. -/
def neutralLoop {d : ℕ} (A : ArgsN d) : ℕ → StN d → Except Err (StN d)
  | 0, st => .ok st
  | fuel + 1, st =>
    if st.t < A.Tmax then (neutralStep A st) >>= neutralLoop A fuel else .ok st

/-- Rank-1 `integrate_neutral` (lines 667-835), returning the full final loop
state; parameter normalization, frozen fixes (no selection fix here) and the
initial positivity check mirror `integrate_nomig1_run`. -/
def integrate_neutral1_run (d : ℕ)
    (lin_solve : Mat d → Vec d → Vec d) (cNeff : (ℚ → ℚ) → ℚ → ℚ → ℚ)
    (calcBFB : ℚ → ℚ → Mat d)
    (sfs0 : Vec d) (Npop : Param) (tf dt_fac : ℚ) (theta : ℚ)
    (fg : Bool) (theta_fd theta_bd : ℚ) (frozen : Bool) (fuel : ℕ) :
    Except Err (StN d) :=
  let Tmax := tf * 2
  let dt0 := Tmax * dt_fac
  let u0 := if fg then theta_fd / 4 else theta / 4
  let v0 := theta_bd / 4
  let NpF := fixNp frozen Npop
  let uF := fixU frozen u0
  let vF := fixV frozen fg v0
  let N0 := NpF.evalAt 0
  if N0 ≤ 0 then .error .nonPositiveSize
  else
    let A : ArgsN d :=
      { NpopA := NpF, Tmax := Tmax, dt_fac := dt_fac, fg := fg,
        Bvec := calcB1 d uF, Bfb := if fg then calcBFB uF vF else 0,
        lin_solve := lin_solve, cNeff := cNeff }
    let st0 : StN d :=
      { t := 0, dt := dt0, N := N0, Nold := N0, Neff := N0, Qm := 1,
        aD := fun _ => 0, dD := fun _ => 1, cD := fun _ => 0,
        sfs := sfs0, warned := false }
    neutralLoop A fuel st0

/-- Rank-1 `integrate_neutral`: the evolved spectrum handed back to the
caller. -/
def integrate_neutral1 (d : ℕ)
    (lin_solve : Mat d → Vec d → Vec d) (cNeff : (ℚ → ℚ) → ℚ → ℚ → ℚ)
    (calcBFB : ℚ → ℚ → Mat d)
    (sfs0 : Vec d) (Npop : Param) (tf dt_fac : ℚ) (theta : ℚ)
    (fg : Bool) (theta_fd theta_bd : ℚ) (frozen : Bool) (fuel : ℕ) :
    Except Err (Vec d) :=
  (integrate_neutral1_run d lin_solve cNeff calcBFB sfs0 Npop tf dt_fac theta
    fg theta_fd theta_bd frozen fuel).map StN.sfs

/-- Per-population vectors for the general `p`-population parameter
normalization. -/
abbrev Vp (p : ℕ) := Fin p → ℚ

/-- A per-population vector parameter that is either a constant vector or a
function of time, mirroring the normalized `s`/`Npop` of the source. -/
inductive VParam (p : ℕ) where
  | const : Vp p → VParam p
  | func : (ℚ → Vp p) → VParam p

/-- Evaluation of a `VParam` at a time. -/
def VParam.evalAt {p : ℕ} : VParam p → ℚ → Vp p
  | .const v, _ => v
  | .func f, t => f t

/-- Numeric value of a boolean frozen flag, as numpy coerces the `frozen`
array in `1 - frozen` and `1e40 * frozen`. -/
def b2q (b : Bool) : ℚ := if b then 1 else 0

/-- General `p`-population frozen fix of the size argument
(Integration_nomig.py lines 500-506 and 722-728): under `np.any(frozen)`, a
constant vector gets `Npop[pop] = 1e40` at each frozen index, and a callable
becomes `lambda t: nu(t) * (1 - frozen) + 1e40 * frozen`. -/
def fixNpV {p : ℕ} (frozen : Fin p → Bool) (Np : VParam p) : VParam p :=
  if ∃ i, frozen i then
    match Np with
    | .const N => .const fun i => if frozen i then 10 ^ 40 else N i
    | .func f =>
      .func fun t => fun i => f t i * (1 - b2q (frozen i)) + 10 ^ 40 * b2q (frozen i)
  else Np

/-- General `p`-population frozen fix of the selection argument
(`integrate_nomig` only, lines 493-499): a constant vector gets
`s[pop] = 0.0` at each frozen index, and a callable becomes
`lambda t: s(t) * (1 - frozen)`. -/
def fixSV {p : ℕ} (frozen : Fin p → Bool) (s : VParam p) : VParam p :=
  if ∃ i, frozen i then
    match s with
    | .const sv => .const fun i => if frozen i then 0 else sv i
    | .func g => .func fun t => fun i => g t i * (1 - b2q (frozen i))
  else s

/-- General `p`-population frozen fix of the forward mutation rates
(lines 507-512 and 729-734): `u *= 1 - frozen`. -/
def fixUV {p : ℕ} (frozen : Fin p → Bool) (u : Vp p) : Vp p :=
  if ∃ i, frozen i then (fun i => u i * (1 - b2q (frozen i))) else u

/-- General `p`-population frozen fix of the backward mutation rates:
`v *= 1 - frozen`, applied only in the finite-genome model. -/
def fixVV {p : ℕ} (frozen : Fin p → Bool) (fg : Bool) (v : Vp p) : Vp p :=
  if ∃ i, frozen i then
    (if fg then (fun i => v i * (1 - b2q (frozen i))) else v)
  else v

/-- The multi-index with a `1` at axis `k` and `0` at every other axis: the
`ind` vector of `_calcB`'s loop body. -/
def unitIdx (r : ℕ) (k : Fin r) : Fin r → ℕ := fun j => if j = k then 1 else 0

/-- The mutation-injection builder `_calcB` (Integration_nomig.py lines
33-42): starting from `np.zeros(dims)`, the loop over axes `k` writes
`B[ind] = (dims[k] - 1) * u[k]` at the multi-index `ind` with `1` at axis `k`
and `0` elsewhere.  The tensor is embedded as a function on multi-indices. -/
def calcB (r : ℕ) (dims : Fin r → ℕ) (u : Fin r → ℚ) : (Fin r → ℕ) → ℚ :=
  (List.finRange r).foldl
    (fun B k => Function.update B (unitIdx r k) (((dims k : ℚ) - 1) * u k))
    fun _ => 0

/-- First per-axis explicit update for a 2-D spectrum (`_ud1_2pop_1`, lines
54-56): `sfs = Q[0].dot(sfs)`. -/
def ud1_2pop_1 {a b : ℕ} (sfs : Matrix (Fin a) (Fin b) ℚ)
    (Q0 : Matrix (Fin a) (Fin a) ℚ) : Matrix (Fin a) (Fin b) ℚ :=
  Q0 * sfs

/-- Second per-axis explicit update for a 2-D spectrum (`_ud1_2pop_2`, lines
59-61): `sfs = Q[1].dot(sfs.transpose()).transpose()`. -/
def ud1_2pop_2 {a b : ℕ} (sfs : Matrix (Fin a) (Fin b) ℚ)
    (Q1 : Matrix (Fin b) (Fin b) ℚ) : Matrix (Fin a) (Fin b) ℚ :=
  (Q1 * sfs.transpose).transpose

/-- The explicit dimensional-splitting driver `_update_step1` (lines
377-381) for a 2-D spectrum: the dispatch applies `_ud1_2pop_1` then
`_ud1_2pop_2`. -/
def update_step1_2pop {a b : ℕ} (sfs : Matrix (Fin a) (Fin b) ℚ)
    (Q0 : Matrix (Fin a) (Fin a) ℚ) (Q1 : Matrix (Fin b) (Fin b) ℚ) :
    Matrix (Fin a) (Fin b) ℚ :=
  ud1_2pop_2 (ud1_2pop_1 sfs Q0) Q1

/-- Concrete first-iteration inputs used to exhibit the step-size proposal of
a reachable `integrate_nomig` call (`Npop = 100`, `tf = 1`, `dt_fac = 0.1`,
zero selection, default dominance, `theta = 1`, infinite sites, not frozen). -/
def c5Args : Args 2 :=
  { NpopA := .const 100, sA := .const 0, hA := .const (1 / 2), Tmax := 2,
    dt_fac := 1 / 10, fg := false, Bvec := calcB1 2 (1 / 4), Bfb := 0,
    vsM := 0, vs2M := 0, lin_solve := fun _ y => y, cNeff := fun _ _ _ => 1 }

/-- The initial loop state of that call, as built by `integrate_nomig1_run`. -/
def c5St0 : St 2 :=
  { t := 0, dt := 2 * (1 / 10), N := 100, Nold := 100, Neff := 100,
    sOld := 0, hOld := 1 / 2, Qm := 1, Mi := 1, sfs := fun _ => 1,
    warned := false }

/-- Concrete inputs with a negative callable size schedule, used to exhibit
the in-loop fatal check of `integrate_nomig`. -/
def w1Args : Args 2 := { c5Args with NpopA := .func fun _ => -1 }

/-- Concrete `integrate_neutral` inputs with a negative callable size
schedule. -/
def w1ArgsN : ArgsN 2 :=
  { NpopA := .func fun _ => -1, Tmax := 2, dt_fac := 1 / 10, fg := false,
    Bvec := calcB1 2 (1 / 4), Bfb := 0, lin_solve := fun _ y => y,
    cNeff := fun _ _ _ => 1 }

/-- A concrete mid-integration `integrate_neutral` loop state. -/
def w1StN : StN 2 :=
  { t := 0, dt := 1 / 5, N := 100, Nold := 100, Neff := 100, Qm := 1,
    aD := fun _ => 0, dD := fun _ => 1, cD := fun _ => 0, sfs := fun _ => 1,
    warned := false }

/-- Invariant of the single-population zero-selection zero-mutation run: a
positive current and effective size, non-negative elapsed time, explicit and
implicit operators of the pure-drift Crank-Nicolson form `I ± cc·vd` with a
non-negative coefficient, and an unchanged total mass. -/
def massInv {d : ℕ} (S0 : ℚ) (st : St d) : Prop :=
  0 < st.N ∧ 0 ≤ st.t ∧ 0 < st.Neff ∧
  (∃ cc : ℚ, 0 ≤ cc ∧ st.Qm = 1 + cc • calcD d ∧ st.Mi = 1 - cc • calcD d) ∧
  totalMass st.sfs = S0

/-- Simulation relation between a zero-selection `integrate_nomig` loop state
and an `integrate_neutral` loop state: all control fields and the spectrum
agree, the cached selection/dominance values are the constants `0`/`hc`, and
the nomig factorized matrix is the neutral tridiagonal system. -/
def simRel {d : ℕ} (hc : ℚ) (st : St d) (stn : StN d) : Prop :=
  st.t = stn.t ∧ st.dt = stn.dt ∧ st.N = stn.N ∧ st.Nold = stn.Nold ∧
  st.Neff = stn.Neff ∧ st.sfs = stn.sfs ∧ st.warned = stn.warned ∧
  st.sOld = 0 ∧ st.hOld = hc ∧ st.Qm = stn.Qm ∧
  st.Mi = tridiagOf stn.aD stn.dD stn.cD

/-- The modelled stability bound is positive for a positive population size. -/
theorem compute_dt_pos {N s h : ℚ} (hN : 0 < N) : 0 < compute_dt N s h := by
  unfold compute_dt
  apply div_pos hN
  positivity

/-- With zero selection the modelled stability bound does not depend on the
dominance coefficient. -/
theorem compute_dt_zero_s (N h h' : ℚ) : compute_dt N 0 h = compute_dt N 0 h' := by
  simp [compute_dt]

/-- Column sums of any standard basis matrix. -/
theorem sum_col_stdBasisMatrix {d : ℕ} (a b : Fin d) (v : ℚ) (j : Fin d) :
    ∑ i, Matrix.stdBasisMatrix a b v i j = if b = j then v else 0 := by
  classical
  by_cases hbj : b = j
  · subst hbj
    simp only [Matrix.stdBasisMatrix, Matrix.of_apply, if_pos, and_true]
    rw [Finset.sum_ite_eq]
    simp
  · simp [Matrix.stdBasisMatrix, hbj]

/-- Every column of the modelled drift operator sums to zero: drift
redistributes mass but creates or destroys none. -/
theorem calcD_colsum (d : ℕ) (j : Fin d) : ∑ i, calcD d i j = 0 := by
  classical
  unfold calcD
  simp only [Matrix.sum_apply, dite_apply, Pi.zero_apply, Matrix.zero_apply]
  rw [Finset.sum_comm]
  refine Finset.sum_eq_zero fun k _ => ?_
  by_cases hk : 0 < (k : ℕ) ∧ (k : ℕ) + 1 < d
  · simp only [dif_pos hk, Matrix.smul_apply, Matrix.add_apply, smul_eq_mul]
    rw [← Finset.mul_sum, Finset.sum_add_distrib, Finset.sum_add_distrib,
      sum_col_stdBasisMatrix, sum_col_stdBasisMatrix, sum_col_stdBasisMatrix]
    by_cases hkj : k = j
    · simp [hkj]
      norm_num
    · simp [hkj]
  · simp [dif_neg hk]

/-- The modelled drift operator is tridiagonal: entries vanish at distance at
least two from the diagonal. -/
theorem calcD_apply_far {d : ℕ} (i j : Fin d)
    (hfar : (i : ℕ) + 2 ≤ (j : ℕ) ∨ (j : ℕ) + 2 ≤ (i : ℕ)) : calcD d i j = 0 := by
  classical
  unfold calcD
  simp only [Matrix.sum_apply, dite_apply, Pi.zero_apply, Matrix.zero_apply]
  refine Finset.sum_eq_zero fun k _ => ?_
  by_cases hk : 0 < (k : ℕ) ∧ (k : ℕ) + 1 < d
  · simp only [dif_pos hk, Matrix.smul_apply, Matrix.add_apply, smul_eq_mul,
      Matrix.stdBasisMatrix, Matrix.of_apply]
    have e1 : ¬((⟨(k : ℕ) - 1, by have := k.isLt; omega⟩ : Fin d) = i ∧ k = j) := by
      rintro ⟨h1, h2⟩
      have v1 := congrArg Fin.val h1
      have v2 := congrArg Fin.val h2
      simp only [Fin.val_mk] at v1 v2
      omega
    have e2 : ¬(k = i ∧ k = j) := by
      rintro ⟨h1, h2⟩
      have v1 := congrArg Fin.val h1
      have v2 := congrArg Fin.val h2
      omega
    have e3 : ¬((⟨(k : ℕ) + 1, hk.2⟩ : Fin d) = i ∧ k = j) := by
      rintro ⟨h1, h2⟩
      have v1 := congrArg Fin.val h1
      have v2 := congrArg Fin.val h2
      simp only [Fin.val_mk] at v1 v2
      omega
    rw [if_neg e1, if_neg e2, if_neg e3]
    ring
  · simp [dif_neg hk]

/-- Reassembling the three extracted diagonals of `I - c·M` (the bands
handed to the tridiagonal solver) recovers `I - c·M`, for any tridiagonal
`M`. -/
theorem tridiagOf_extract {d : ℕ} (M : Mat d)
    (hM : ∀ i j : Fin d, (i : ℕ) + 2 ≤ (j : ℕ) ∨ (j : ℕ) + 2 ≤ (i : ℕ) → M i j = 0)
    (c : ℚ) :
    tridiagOf (fun i => -c * lowerOf M i) (fun i => 1 - c * M i i)
      (fun i => -c * upperOf M i) = 1 - c • M := by
  funext i j
  simp only [tridiagOf, Matrix.sub_apply, Matrix.smul_apply, Matrix.one_apply,
    smul_eq_mul]
  by_cases h1 : (i : ℕ) = (j : ℕ) + 1
  · rw [if_pos h1]
    have hij : i ≠ j := by
      intro h
      exact absurd (congrArg Fin.val h) (by omega)
    rw [if_neg hij]
    unfold lowerOf
    have hpos : 0 < (i : ℕ) := by omega
    rw [dif_pos hpos]
    have : (⟨(i : ℕ) - 1, Nat.lt_of_le_of_lt (Nat.sub_le _ _) i.isLt⟩ : Fin d) = j := by
      apply Fin.ext
      simp only [Fin.val_mk]
      omega
    rw [this]
    ring
  · rw [if_neg h1]
    by_cases h2 : i = j
    · rw [if_pos h2, if_pos h2, h2]
    · rw [if_neg h2, if_neg h2]
      by_cases h3 : (j : ℕ) = (i : ℕ) + 1
      · rw [if_pos h3]
        unfold upperOf
        have hlt : (i : ℕ) + 1 < d := by have := j.isLt; omega
        rw [dif_pos hlt]
        have : (⟨(i : ℕ) + 1, hlt⟩ : Fin d) = j := by
          apply Fin.ext
          simp only [Fin.val_mk]
          omega
        rw [this]
        ring
      · rw [if_neg h3]
        have hij : (i : ℕ) ≠ (j : ℕ) := fun h => h2 (Fin.ext h)
        rw [hM i j (by omega)]
        ring

/-- The placeholder diagonals of the initial neutral state assemble to the
identity, matching the nomig placeholder `Mi = 1`. -/
theorem tridiagOf_init {d : ℕ} :
    tridiagOf (fun _ => (0 : ℚ)) (fun _ => (1 : ℚ)) (fun _ => (0 : ℚ)) = (1 : Mat d) := by
  funext i j
  simp only [tridiagOf, Matrix.one_apply]
  by_cases h1 : (i : ℕ) = (j : ℕ) + 1
  · rw [if_pos h1, if_neg (fun h : i = j => by exact absurd (congrArg Fin.val h) (by omega))]
  · rw [if_neg h1]
    by_cases h2 : i = j
    · rw [if_pos h2, if_pos h2]
    · rw [if_neg h2, if_neg h2]
      by_cases h3 : (j : ℕ) = (i : ℕ) + 1
      · rw [if_pos h3]
      · rw [if_neg h3]

/-- Summing a matrix-vector product by columns. -/
theorem sum_mulVec {d : ℕ} (M : Mat d) (x : Vec d) :
    ∑ i, M.mulVec x i = ∑ j, (∑ i, M i j) * x j := by
  simp only [Matrix.mulVec, Matrix.dotProduct]
  rw [Finset.sum_comm]
  simp [Finset.sum_mul]

/-- A matrix all of whose columns sum to zero maps every vector to a vector
of total mass zero. -/
theorem sum_mulVec_colzero {d : ℕ} (M : Mat d)
    (hM : ∀ j, ∑ i, M i j = 0) (x : Vec d) : ∑ i, M.mulVec x i = 0 := by
  rw [sum_mulVec]
  simp [hM]


/-- Full behaviour of the retry-loop body under a positive size schedule:
it returns without error, performs `r.k - niter` further halvings stopping at
the cap of `10`, and the diagnostic is printed whenever the final relative
change still exceeds the threshold. -/
theorem halveGo_spec (f : ℚ → ℚ) (cN : (ℚ → ℚ) → ℚ → ℚ → ℚ) (t Nold : ℚ)
    (hf : ∀ τ, 0 < f τ) :
    ∀ (fuel : ℕ) (dt N Neff : ℚ) (niter : ℕ), 10 ≤ fuel + niter →
      ∃ r : HalveOut, halveGo f cN t Nold fuel dt N Neff niter = .ok r ∧
        niter ≤ r.k ∧ r.k ≤ max (niter + 1) 10 ∧
        r.dt = dt / 2 ^ (r.k - niter) ∧
        (1 / 2 < |r.N - Nold| / Nold → r.warn = true) ∧
        (0 < N → 0 < r.N) ∧
        ((0 < Neff ∧ ∀ g a b, (∀ τ, 0 < g τ) → 0 < cN g a b) → 0 < r.Neff) ∧
        (0 < dt → 0 < r.dt) := by
  intro fuel
  induction fuel with
  | zero =>
    intro dt N Neff niter hfn
    simp only [halveGo]
    by_cases hchg : 1 / 2 < |N - Nold| / Nold
    · rw [if_pos hchg, if_neg (not_le.mpr (hf _))]
      refine ⟨_, rfl, Nat.le_succ _, le_max_left _ _, ?_, fun _ => rfl,
        fun _ => hf _, fun hp => hp.2 f _ _ hf, fun hdt => div_pos hdt (by norm_num)⟩
      show dt / 2 = dt / 2 ^ (niter + 1 - niter)
      simp
    · rw [if_neg hchg]
      refine ⟨_, rfl, le_rfl, le_trans (Nat.le_succ _) (le_max_left _ _), ?_,
        fun hc => absurd hc hchg, fun h => h, fun hp => hp.1, fun h => h⟩
      show dt = dt / 2 ^ (niter - niter)
      simp
  | succ fuel ih =>
    intro dt N Neff niter hfn
    simp only [halveGo]
    by_cases hchg : 1 / 2 < |N - Nold| / Nold
    · rw [if_pos hchg, if_neg (not_le.mpr (hf _))]
      by_cases hbrk : 10 ≤ niter + 1
      · rw [if_pos hbrk]
        refine ⟨_, rfl, Nat.le_succ _, le_max_left _ _, ?_, fun _ => rfl,
          fun _ => hf _, fun hp => hp.2 f _ _ hf, fun hdt => div_pos hdt (by norm_num)⟩
        show dt / 2 = dt / 2 ^ (niter + 1 - niter)
        simp
      · rw [if_neg hbrk]
        obtain ⟨r, hr, hk1, hk2, hdt, hw, hN, hNe, hdtpos⟩ :=
          ih (dt / 2) (f ((t + dt / 2) / 2)) (cN f (t / 2) ((t + dt / 2) / 2))
            (niter + 1) (by omega)
        refine ⟨r, hr, by omega, ?_, ?_, hw, fun _ => hN (hf _),
          fun hp => hNe ⟨hp.2 f _ _ hf, hp.2⟩,
          fun hd => hdtpos (div_pos hd (by norm_num))⟩
        · have hmax : max (niter + 2) 10 = 10 := max_eq_right (by omega)
          rw [hmax] at hk2
          exact le_trans hk2 (le_max_right _ _)
        · rw [hdt]
          have hexp : r.k - niter = (r.k - (niter + 1)) + 1 := by omega
          rw [hexp, pow_succ, div_div, mul_comm ((2 : ℚ) ^ (r.k - (niter + 1))) 2,
            ← div_div]
    · rw [if_neg hchg]
      refine ⟨_, rfl, le_rfl, le_trans (Nat.le_succ _) (le_max_left _ _), ?_,
        fun hc => absurd hc hchg, fun h => h, fun hp => hp.1, fun h => h⟩
      show dt = dt / 2 ^ (niter - niter)
      simp

/-- Inside the retry loop, a non-positive size evaluated after a halving
raises immediately. -/
theorem halveLoop_err (f : ℚ → ℚ) (cN : (ℚ → ℚ) → ℚ → ℚ → ℚ)
    (t Nold dt N Neff : ℚ) (niter : ℕ)
    (hchg : 1 / 2 < |N - Nold| / Nold) (hbad : f ((t + dt / 2) / 2) ≤ 0) :
    halveLoop f cN t Nold dt N Neff niter = .error .nonPositiveSize := by
  unfold halveLoop
  rw [show (10 : ℕ) = 9 + 1 from rfl]
  simp only [halveGo]
  rw [if_pos hchg, if_pos hbad]

/-- The shared size controller never raises under a positive size schedule,
and propagates positivity of the size, effective size and step. -/
theorem ctrlCore_spec (NpopA : Param) (cN : (ℚ → ℚ) → ℚ → ℚ → ℚ)
    (t Nold N Neff dt2 : ℚ) (hpos : ∀ τ, 0 < NpopA.evalAt τ) :
    ∃ c : Ctrl, ctrlCore cN t Nold N Neff dt2 NpopA = .ok c ∧
      (0 < N → 0 < c.N) ∧
      ((0 < Neff ∧ ∀ g a b, (∀ τ, 0 < g τ) → 0 < cN g a b) → 0 < c.Neff) ∧
      (0 < dt2 → 0 < c.dt) := by
  cases NpopA with
  | const x =>
    exact ⟨⟨dt2, N, Neff, false⟩, rfl, fun h => h, fun h => h.1, fun h => h⟩
  | func f =>
    have hf : ∀ τ, 0 < f τ := fun τ => hpos τ
    simp only [ctrlCore, halveLoop]
    rw [if_neg (not_le.mpr (hf _))]
    obtain ⟨r, hr, _, _, _, _, hNr, hNer, hdtr⟩ :=
      halveGo_spec f cN t Nold hf 10 dt2 (f ((t + dt2) / 2))
        (cN f (t / 2) ((t + dt2) / 2)) 0 (by omega)
    rw [hr]
    exact ⟨⟨r.dt, r.N, r.Neff, r.warn⟩, rfl, fun _ => hNr (hf _),
      fun hp => hNer ⟨hp.2 f _ _ hf, hp.2⟩, fun h => hdtr h⟩

/-- One `integrate_nomig` iteration never raises under a positive size
schedule, and propagates size positivity. -/
theorem nomigStep_spec {d : ℕ} (A : Args d) (st : St d)
    (hpos : ∀ τ, 0 < A.NpopA.evalAt τ) (hN : 0 < st.N) :
    ∃ c : Ctrl, nomigStep A st = .ok (nomigApply A st c) ∧ 0 < c.N := by
  obtain ⟨c, hc, hNc, _, _⟩ :=
    ctrlCore_spec A.NpopA A.cNeff st.t st.Nold st.N st.Neff
      (propose_dt st.N st.sOld st.hOld A.Tmax A.dt_fac st.t) hpos
  refine ⟨c, ?_, hNc hN⟩
  unfold nomigStep nomigCtrl
  rw [hc]
  rfl

/-- The `integrate_nomig` time loop never raises under a positive size
schedule. -/
theorem nomigLoop_no_err {d : ℕ} (A : Args d)
    (hpos : ∀ τ, 0 < A.NpopA.evalAt τ) :
    ∀ (fuel : ℕ) (st : St d), 0 < st.N →
      ∃ st', nomigLoop A fuel st = .ok st' := by
  intro fuel
  induction fuel with
  | zero => exact fun st _ => ⟨st, rfl⟩
  | succ fuel ih =>
    intro st hN
    simp only [nomigLoop]
    by_cases hlt : st.t < A.Tmax
    · rw [if_pos hlt]
      obtain ⟨c, hc, hNc⟩ := nomigStep_spec A st hpos hN
      rw [hc]
      exact ih (nomigApply A st c) hNc
    · rw [if_neg hlt]
      exact ⟨st, rfl⟩

/-- One `integrate_neutral` iteration never raises under a positive size
schedule, and propagates size positivity. -/
theorem neutralStep_spec {d : ℕ} (A : ArgsN d) (st : StN d)
    (hpos : ∀ τ, 0 < A.NpopA.evalAt τ) (hN : 0 < st.N) :
    ∃ c : Ctrl, neutralStep A st = .ok (neutralApply A st c) ∧ 0 < c.N := by
  obtain ⟨c, hc, hNc, _, _⟩ :=
    ctrlCore_spec A.NpopA A.cNeff st.t st.Nold st.N st.Neff
      (propose_dt st.N 0 (1 / 2) A.Tmax A.dt_fac st.t) hpos
  refine ⟨c, ?_, hNc hN⟩
  unfold neutralStep neutralCtrl
  rw [hc]
  rfl

/-- The `integrate_neutral` time loop never raises under a positive size
schedule. -/
theorem neutralLoop_no_err {d : ℕ} (A : ArgsN d)
    (hpos : ∀ τ, 0 < A.NpopA.evalAt τ) :
    ∀ (fuel : ℕ) (st : StN d), 0 < st.N →
      ∃ st', neutralLoop A fuel st = .ok st' := by
  intro fuel
  induction fuel with
  | zero => exact fun st _ => ⟨st, rfl⟩
  | succ fuel ih =>
    intro st hN
    simp only [neutralLoop]
    by_cases hlt : st.t < A.Tmax
    · rw [if_pos hlt]
      obtain ⟨c, hc, hNc⟩ := neutralStep_spec A st hpos hN
      rw [hc]
      exact ih (neutralApply A st c) hNc
    · rw [if_neg hlt]
      exact ⟨st, rfl⟩

/-- C1: in `integrate_nomig` and `integrate_neutral` a non-positive evaluated
population size — in the initial evaluation `Npop(0)` or at any step-midpoint
evaluation inside the time loop (including inside the halving retry loop) —
raises the fatal error immediately, with no result; conversely a size
schedule that is strictly positive at every time never raises it. -/
theorem claim_C1_nonpositive_size_fatal :
    (∀ (d : ℕ) ls cN (vsM vs2M : Mat d) cb sfs0 Npop tf dt_fac gA hA th fg
        tfd tbd frozen fuel,
      Param.evalAt (fixNp frozen Npop) 0 ≤ 0 →
      integrate_nomig1_run d ls cN vsM vs2M cb sfs0 Npop tf dt_fac gA hA th fg
        tfd tbd frozen fuel = .error .nonPositiveSize) ∧
    (∀ (d : ℕ) (A : Args d) (st : St d) (f : ℚ → ℚ), A.NpopA = .func f →
      f ((st.t + propose_dt st.N st.sOld st.hOld A.Tmax A.dt_fac st.t) / 2) ≤ 0 →
      nomigStep A st = .error .nonPositiveSize) ∧
    (∀ f cN t Nold dt N Neff niter, 1 / 2 < |N - Nold| / Nold →
      f ((t + dt / 2) / 2) ≤ 0 →
      halveLoop f cN t Nold dt N Neff niter = .error .nonPositiveSize) ∧
    (∀ (d : ℕ) ls cN (vsM vs2M : Mat d) cb sfs0 Npop tf dt_fac gA hA th fg
        tfd tbd frozen fuel,
      (∀ τ, 0 < Param.evalAt (fixNp frozen Npop) τ) →
      ∃ st, integrate_nomig1_run d ls cN vsM vs2M cb sfs0 Npop tf dt_fac gA hA
        th fg tfd tbd frozen fuel = .ok st) ∧
    (∀ (d : ℕ) ls cN cb sfs0 Npop tf dt_fac th fg tfd tbd frozen fuel,
      Param.evalAt (fixNp frozen Npop) 0 ≤ 0 →
      integrate_neutral1_run d ls cN cb sfs0 Npop tf dt_fac th fg tfd tbd
        frozen fuel = .error .nonPositiveSize) ∧
    (∀ (d : ℕ) (A : ArgsN d) (st : StN d) (f : ℚ → ℚ), A.NpopA = .func f →
      f ((st.t + propose_dt st.N 0 (1 / 2) A.Tmax A.dt_fac st.t) / 2) ≤ 0 →
      neutralStep A st = .error .nonPositiveSize) ∧
    (∀ (d : ℕ) ls cN cb sfs0 Npop tf dt_fac th fg tfd tbd frozen fuel,
      (∀ τ, 0 < Param.evalAt (fixNp frozen Npop) τ) →
      ∃ st, integrate_neutral1_run d ls cN cb sfs0 Npop tf dt_fac th fg tfd tbd
        frozen fuel = .ok st) := by
  refine ⟨?_, ?_, ?_, ?_, ?_, ?_, ?_⟩
  · intro d ls cN vsM vs2M cb sfs0 Npop tf dt_fac gA hA th fg tfd tbd frozen fuel h0
    simp only [integrate_nomig1_run]
    rw [if_pos h0]
  · intro d A st f hA hbad
    unfold nomigStep nomigCtrl
    rw [hA]
    simp only [ctrlCore]
    rw [if_pos hbad]
    rfl
  · intro f cN t Nold dt N Neff niter hchg hbad
    exact halveLoop_err f cN t Nold dt N Neff niter hchg hbad
  · intro d ls cN vsM vs2M cb sfs0 Npop tf dt_fac gA hA th fg tfd tbd frozen fuel hpos
    simp only [integrate_nomig1_run]
    rw [if_neg (not_le.mpr (hpos 0))]
    exact nomigLoop_no_err _ hpos fuel _ (hpos 0)
  · intro d ls cN cb sfs0 Npop tf dt_fac th fg tfd tbd frozen fuel h0
    simp only [integrate_neutral1_run]
    rw [if_pos h0]
  · intro d A st f hA hbad
    unfold neutralStep neutralCtrl
    rw [hA]
    simp only [ctrlCore]
    rw [if_pos hbad]
    rfl
  · intro d ls cN cb sfs0 Npop tf dt_fac th fg tfd tbd frozen fuel hpos
    simp only [integrate_neutral1_run]
    rw [if_neg (not_le.mpr (hpos 0))]
    exact neutralLoop_no_err _ hpos fuel _ (hpos 0)

/-- Witness for C1 at concrete inputs: a zero constant size errors, a
negative callable midpoint evaluation errors (at step level and inside the
retry loop), and positive schedules run to completion, for both integrators. -/
theorem claim_C1_witness :
    integrate_nomig1_run 2 (fun _ y => y) (fun _ _ _ => 1) 0 0 (fun _ _ => 0)
      (fun _ => 1) (.const 0) 1 (1 / 10) none none 1 false 0 0 false 3 =
      .error .nonPositiveSize ∧
    nomigStep w1Args c5St0 = .error .nonPositiveSize ∧
    halveLoop (fun _ => -1) (fun _ _ _ => 1) 0 1 1 10 1 0 =
      .error .nonPositiveSize ∧
    (∃ st, integrate_nomig1_run 2 (fun _ y => y) (fun _ _ _ => 1) 0 0
      (fun _ _ => 0) (fun _ => 1) (.const 1) 1 (1 / 10) none none 1 false 0 0
      false 3 = .ok st) ∧
    integrate_neutral1_run 2 (fun _ y => y) (fun _ _ _ => 1) (fun _ _ => 0)
      (fun _ => 1) (.const 0) 1 (1 / 10) 1 false 0 0 false 3 =
      .error .nonPositiveSize ∧
    neutralStep w1ArgsN w1StN = .error .nonPositiveSize ∧
    (∃ st, integrate_neutral1_run 2 (fun _ y => y) (fun _ _ _ => 1)
      (fun _ _ => 0) (fun _ => 1) (.const 1) 1 (1 / 10) 1 false 0 0 false 3 =
      .ok st) :=
  ⟨claim_C1_nonpositive_size_fatal.1 2 _ _ _ _ _ _ _ _ _ _ _ _ _ _ _ _ 3
      (by simp [fixNp, Param.evalAt]),
    claim_C1_nonpositive_size_fatal.2.1 2 w1Args c5St0 (fun _ => -1) rfl
      (by norm_num),
    claim_C1_nonpositive_size_fatal.2.2.1 (fun _ => -1) (fun _ _ _ => 1) 0 1 1
      10 1 0 (by norm_num) (by norm_num),
    claim_C1_nonpositive_size_fatal.2.2.2.1 2 _ _ _ _ _ _ _ _ _ _ _ _ _ _ _ _ 3
      (by simp [fixNp, Param.evalAt]),
    claim_C1_nonpositive_size_fatal.2.2.2.2.1 2 _ _ _ _ _ _ _ _ _ _ _ _ 3
      (by simp [fixNp, Param.evalAt]),
    claim_C1_nonpositive_size_fatal.2.2.2.2.2.1 2 w1ArgsN w1StN (fun _ => -1)
      rfl (by norm_num),
    claim_C1_nonpositive_size_fatal.2.2.2.2.2.2 2 _ _ _ _ _ _ _ _ _ _ _ _ 3
      (by simp [fixNp, Param.evalAt])⟩

/-- C9: the dimensional-splitting driver `_update_step1` applied with the
identity matrix as the operator on both axes leaves an arbitrary 2-D tensor
unchanged. -/
theorem claim_C9_update_step1_identity (a b : ℕ) (sfs : Matrix (Fin a) (Fin b) ℚ) :
    update_step1_2pop sfs 1 1 = sfs := by
  simp [update_step1_2pop, ud1_2pop_1, ud1_2pop_2, Matrix.one_mul,
    Matrix.transpose_transpose]

/-- Unit multi-indices of distinct axes are distinct. -/
theorem unitIdx_inj {r : ℕ} {k k' : Fin r} (h : unitIdx r k = unitIdx r k') :
    k = k' := by
  by_contra hne
  have h1 := congrFun h k
  simp [unitIdx, hne] at h1

/-- A fold of updates leaves untouched any point distinct from every key. -/
theorem foldl_update_apply_of_ne {r : ℕ} (val : Fin r → ℚ) :
    ∀ (l : List (Fin r)) (B : (Fin r → ℕ) → ℚ) (q : Fin r → ℕ),
      (∀ k ∈ l, q ≠ unitIdx r k) →
      (l.foldl (fun B k => Function.update B (unitIdx r k) (val k)) B) q = B q := by
  intro l
  induction l with
  | nil => intro B q _; rfl
  | cons a l ih =>
    intro B q hq
    simp only [List.foldl_cons]
    rw [ih _ q (fun k hk => hq k (List.mem_cons_of_mem a hk))]
    exact Function.update_noteq (hq a (List.mem_cons_self a l)) _ B

/-- A fold of updates with pairwise-distinct keys stores each value at its
key. -/
theorem foldl_update_apply_of_mem {r : ℕ} (val : Fin r → ℚ) :
    ∀ (l : List (Fin r)) (B : (Fin r → ℕ) → ℚ) (k : Fin r), k ∈ l → l.Nodup →
      (l.foldl (fun B k => Function.update B (unitIdx r k) (val k)) B)
        (unitIdx r k) = val k := by
  intro l
  induction l with
  | nil => intro B k hk _; cases hk
  | cons a l ih =>
    intro B k hk hnd
    simp only [List.foldl_cons]
    rcases List.mem_cons.mp hk with h | h
    · subst h
      have hnotin : k ∉ l := (List.nodup_cons.mp hnd).1
      rw [foldl_update_apply_of_ne val l _ _ fun k' hk' heq =>
        hnotin (by rw [unitIdx_inj heq]; exact hk')]
      exact Function.update_same _ _ _
    · exact ih _ k h (List.nodup_cons.mp hnd).2

/-- C8: for axis lengths all at least 2, `_calcB` returns the tensor whose
entry at the singleton multi-index of axis `k` is `(dims[k] - 1) * u[k]` and
whose every other entry is zero. -/
theorem claim_C8_calcB_singleton (r : ℕ) (dims : Fin r → ℕ) (u : Fin r → ℚ)
    (_hdims : ∀ k, 2 ≤ dims k) :
    (∀ k : Fin r, calcB r dims u (unitIdx r k) = ((dims k : ℚ) - 1) * u k) ∧
    (∀ idx : Fin r → ℕ, (∀ k, idx ≠ unitIdx r k) → calcB r dims u idx = 0) := by
  constructor
  · intro k
    exact foldl_update_apply_of_mem _ _ _ k (List.mem_finRange k)
      (List.nodup_finRange r)
  · intro idx hidx
    exact foldl_update_apply_of_ne _ _ _ idx fun k _ => hidx k

/-- Witness for C8 at `dims = (3, 3)`, `u = (1/2, 1/4)`: the two singleton
bins receive `(3-1)·u[k]` and the origin stays zero. -/
theorem claim_C8_witness :
    (∀ k : Fin 2, 2 ≤ (fun _ : Fin 2 => 3) k) ∧
    calcB 2 (fun _ => 3) (fun k => if k = 0 then 1 / 2 else 1 / 4) (unitIdx 2 0) =
      ((3 : ℚ) - 1) * (1 / 2) ∧
    calcB 2 (fun _ => 3) (fun k => if k = 0 then 1 / 2 else 1 / 4) (fun _ => 0) = 0 :=
  ⟨fun _ => by norm_num,
    by simpa using
      (claim_C8_calcB_singleton 2 (fun _ => 3)
        (fun k => if k = 0 then 1 / 2 else 1 / 4) (fun _ => by norm_num)).1 0,
    (claim_C8_calcB_singleton 2 (fun _ => 3)
        (fun k => if k = 0 then 1 / 2 else 1 / 4) (fun _ => by norm_num)).2
      (fun _ => 0) (by decide)⟩

/-- C7: the frozen-population normalization of both integrators forces each
frozen population's size to the constant `1e40` (in the vector or at every
evaluation of a callable), its selection coefficient to zero
(`integrate_nomig`), and its mutation rates `u` (and `v` in the finite-genome
model) to zero, while every non-frozen population's parameters are left
unchanged. -/
theorem claim_C7_frozen_fix (p : ℕ) (frozen : Fin p → Bool) (Np s : VParam p)
    (u v : Vp p) (fg : Bool) (i : Fin p) :
    (frozen i = true →
      (∀ t, (fixNpV frozen Np).evalAt t i = 10 ^ 40) ∧
      (∀ t, (fixSV frozen s).evalAt t i = 0) ∧
      fixUV frozen u i = 0 ∧ (fg = true → fixVV frozen fg v i = 0)) ∧
    (frozen i = false →
      (∀ t, (fixNpV frozen Np).evalAt t i = Np.evalAt t i) ∧
      (∀ t, (fixSV frozen s).evalAt t i = s.evalAt t i) ∧
      fixUV frozen u i = u i ∧ fixVV frozen fg v i = v i) := by
  constructor
  · intro hfi
    have hex : ∃ j, frozen j := ⟨i, hfi⟩
    refine ⟨?_, ?_, ?_, ?_⟩
    · intro t
      cases Np with
      | const N =>
        simp only [fixNpV, if_pos hex]
        simp [VParam.evalAt, hfi]
      | func f =>
        simp only [fixNpV, if_pos hex]
        simp [VParam.evalAt, hfi, b2q]
    · intro t
      cases s with
      | const sv =>
        simp only [fixSV, if_pos hex]
        simp [VParam.evalAt, hfi]
      | func g =>
        simp only [fixSV, if_pos hex]
        simp [VParam.evalAt, hfi, b2q]
    · simp only [fixUV, if_pos hex]
      simp [hfi, b2q]
    · intro hfg
      simp only [fixVV, if_pos hex, hfg, if_pos]
      simp [hfi, b2q]
  · intro hfi
    by_cases hex : ∃ j, frozen j
    · refine ⟨?_, ?_, ?_, ?_⟩
      · intro t
        cases Np with
        | const N =>
          simp only [fixNpV, if_pos hex]
          simp [VParam.evalAt, hfi]
        | func f =>
          simp only [fixNpV, if_pos hex]
          simp [VParam.evalAt, hfi, b2q]
      · intro t
        cases s with
        | const sv =>
          simp only [fixSV, if_pos hex]
          simp [VParam.evalAt, hfi]
        | func g =>
          simp only [fixSV, if_pos hex]
          simp [VParam.evalAt, hfi, b2q]
      · simp only [fixUV, if_pos hex]
        simp [hfi, b2q]
      · cases fg with
        | true =>
          simp only [fixVV, if_pos hex, if_pos]
          simp [hfi, b2q]
        | false =>
          simp [fixVV, if_pos hex]
    · exact ⟨fun t => by simp [fixNpV, if_neg hex], fun t => by simp [fixSV, if_neg hex],
        by simp [fixUV, if_neg hex], by simp [fixVV, if_neg hex]⟩

/-- Witness for C7 at two populations with the first frozen: the frozen
population's size is `1e40` and its selection and mutation rates are zero at
every time, while the second population's parameters are untouched. -/
theorem claim_C7_witness :
    ((fun j : Fin 2 => j = 0) 0 = true →
      (∀ t, (fixNpV (fun j : Fin 2 => j = 0) (.const fun _ => 7)).evalAt t 0 = 10 ^ 40) ∧
      (∀ t, (fixSV (fun j : Fin 2 => j = 0) (.func fun τ _ => τ)).evalAt t 0 = 0) ∧
      fixUV (fun j : Fin 2 => j = 0) (fun _ => 3) 0 = 0 ∧
      (true = true → fixVV (fun j : Fin 2 => j = 0) true (fun _ => 5) 0 = 0)) ∧
    ((fun j : Fin 2 => j = 0) 1 = false →
      (∀ t, (fixNpV (fun j : Fin 2 => j = 0) (.const fun _ => 7)).evalAt t 1 =
        (VParam.const (fun _ => (7 : ℚ)) : VParam 2).evalAt t 1) ∧
      (∀ t, (fixSV (fun j : Fin 2 => j = 0) (.func fun τ _ => τ)).evalAt t 1 =
        (VParam.func (fun τ _ => τ) : VParam 2).evalAt t 1) ∧
      fixUV (fun j : Fin 2 => j = 0) (fun _ => 3) 1 = (fun _ : Fin 2 => (3 : ℚ)) 1 ∧
      fixVV (fun j : Fin 2 => j = 0) true (fun _ => 5) 1 = (fun _ : Fin 2 => (5 : ℚ)) 1) :=
  ⟨fun _ =>
      (claim_C7_frozen_fix 2 (fun j : Fin 2 => j = 0) (.const fun _ => 7)
        (.func fun τ _ => τ) (fun _ => 3) (fun _ => 5) true 0).1 (by decide),
    fun _ =>
      (claim_C7_frozen_fix 2 (fun j : Fin 2 => j = 0) (.const fun _ => 7)
        (.func fun τ _ => τ) (fun _ => 3) (fun _ => 5) true 1).2 (by decide)⟩

/-- C6: for a callable size schedule that stays positive, the halving retry
loop always terminates without error, performs at most 10 halvings (the
accepted step is the proposal divided by `2^k`), and whenever the final
relative change still exceeds the threshold `0.5` the diagnostic has been
emitted and the step still proceeds. -/
theorem claim_C6_halving_bounded (f : ℚ → ℚ) (cN : (ℚ → ℚ) → ℚ → ℚ → ℚ)
    (t Nold dt N Neff : ℚ) (hf : ∀ τ, 0 < f τ) :
    ∃ r : HalveOut, halveLoop f cN t Nold dt N Neff 0 = .ok r ∧
      r.k ≤ 10 ∧ r.dt = dt / 2 ^ r.k ∧
      (1 / 2 < |r.N - Nold| / Nold → r.warn = true) := by
  obtain ⟨r, hr, _, hk2, hdt, hw, _, _, _⟩ :=
    halveGo_spec f cN t Nold hf 10 dt N Neff 0 (by omega)
  refine ⟨r, hr, ?_, by simpa using hdt, hw⟩
  have : max (0 + 1) 10 = 10 := by norm_num
  omega

/-- Witness for C6: a schedule jumping from `1` to `4` (relative change `3`)
exhausts the retry budget without raising. -/
theorem claim_C6_witness :
    (∀ _x : ℚ, 0 < (4 : ℚ)) ∧
    ∃ r : HalveOut, halveLoop (fun _ => 4) (fun _ _ _ => 1) 0 1 1 4 1 0 = .ok r ∧
      r.k ≤ 10 ∧ r.dt = 1 / 2 ^ r.k ∧
      (1 / 2 < |r.N - 1| / 1 → r.warn = true) :=
  ⟨fun _ => by norm_num,
    claim_C6_halving_bounded (fun _ => 4) (fun _ _ _ => 1) 0 1 1 4 1
      fun _ => by norm_num⟩

/-- A state already at or past the target time exits the loop unchanged, for
any fuel. -/
theorem nomigLoop_done {d : ℕ} (A : Args d) (st : St d) (h : ¬ st.t < A.Tmax) :
    ∀ fuel, nomigLoop A fuel st = .ok st := by
  intro fuel
  cases fuel with
  | zero => rfl
  | succ fuel => simp [nomigLoop, h]

/-- A neutral state already at or past the target time exits the loop
unchanged, for any fuel. -/
theorem neutralLoop_done {d : ℕ} (A : ArgsN d) (st : StN d) (h : ¬ st.t < A.Tmax) :
    ∀ fuel, neutralLoop A fuel st = .ok st := by
  intro fuel
  cases fuel with
  | zero => rfl
  | succ fuel => simp [neutralLoop, h]

/-- C10: for a non-positive target time, provided the size evaluated at time
`0` is positive, both integrators execute no time step and return the input
spectrum unchanged, for every choice of the remaining parameters. -/
theorem claim_C10_nonpositive_time_identity (d : ℕ)
    (ls : Mat d → Vec d → Vec d) (cN : (ℚ → ℚ) → ℚ → ℚ → ℚ)
    (vsM vs2M : Mat d) (cb : ℚ → ℚ → Mat d) (sfs0 : Vec d) (Npop : Param)
    (tf dt_fac : ℚ) (gA hA : Option Param) (th : ℚ) (fg : Bool)
    (tfd tbd : ℚ) (frozen : Bool) (fuel : ℕ)
    (htf : tf ≤ 0) (hpos0 : 0 < Param.evalAt (fixNp frozen Npop) 0) :
    (∃ st, integrate_nomig1_run d ls cN vsM vs2M cb sfs0 Npop tf dt_fac gA hA
      th fg tfd tbd frozen fuel = .ok st ∧ st.sfs = sfs0) ∧
    (∃ stn, integrate_neutral1_run d ls cN cb sfs0 Npop tf dt_fac th fg tfd
      tbd frozen fuel = .ok stn ∧ stn.sfs = sfs0) := by
  have hT : ¬ (0 : ℚ) < tf * 2 := by
    intro h
    nlinarith
  constructor
  · simp only [integrate_nomig1_run]
    rw [if_neg (not_le.mpr hpos0)]
    exact ⟨_, nomigLoop_done _ _ hT fuel, rfl⟩
  · simp only [integrate_neutral1_run]
    rw [if_neg (not_le.mpr hpos0)]
    exact ⟨_, neutralLoop_done _ _ hT fuel, rfl⟩

/-- Witness for C10: at `tf = 0` with unit population size both integrators
return the input spectrum. -/
theorem claim_C10_witness :
    (0 : ℚ) ≤ 0 ∧ 0 < Param.evalAt (fixNp false (.const 1)) 0 ∧
    ((∃ st, integrate_nomig1_run 2 (fun _ y => y) (fun _ _ _ => 1) 0 0
      (fun _ _ => 0) (fun _ => 3) (.const 1) 0 (1 / 10) none none 1 false 0 0
      false 5 = .ok st ∧ st.sfs = fun _ => 3) ∧
    (∃ stn, integrate_neutral1_run 2 (fun _ y => y) (fun _ _ _ => 1)
      (fun _ _ => 0) (fun _ => 3) (.const 1) 0 (1 / 10) 1 false 0 0 false 5 =
      .ok stn ∧ stn.sfs = fun _ => 3)) :=
  ⟨le_refl 0, by simp [fixNp, Param.evalAt],
    claim_C10_nonpositive_time_identity 2 (fun _ y => y) (fun _ _ _ => 1) 0 0
      (fun _ _ => 0) (fun _ => 3) (.const 1) 0 (1 / 10) none none 1 false 0 0
      false 5 (le_refl 0) (by simp [fixNp, Param.evalAt])⟩

/-- C4: in every `integrate_nomig` iteration the operators `Q`/`slv` are
recomputed exactly when it is the first step (`t == 0`) or the population
size, the step size, the selection value or the dominance value differs from
the previous step's value under exact inequality; when recomputed they are
built from the governing parameters `(dt, Neff, s_new, h_new)` of the step,
and otherwise the previous operators are reused unchanged. -/
theorem claim_C4_rebuild_iff (d : ℕ) (A : Args d) (st : St d) (c : Ctrl)
    (hc : nomigCtrl A st = .ok c) :
    nomigStep A st = .ok (nomigApply A st c) ∧
    ((st.t = 0 ∨ c.N ≠ st.Nold ∨ c.dt ≠ st.dt ∨
        A.sA.evalAt ((st.t + c.dt / 2) / 2) ≠ st.sOld ∨
        A.hA.evalAt ((st.t + c.dt / 2) / 2) ≠ st.hOld) →
      (nomigApply A st c).Qm =
        (buildQS A.vsM A.vs2M c.dt c.Neff
          (A.sA.evalAt ((st.t + c.dt / 2) / 2))
          (A.hA.evalAt ((st.t + c.dt / 2) / 2))).1 ∧
      (nomigApply A st c).Mi =
        (buildQS A.vsM A.vs2M c.dt c.Neff
          (A.sA.evalAt ((st.t + c.dt / 2) / 2))
          (A.hA.evalAt ((st.t + c.dt / 2) / 2))).2) ∧
    (¬(st.t = 0 ∨ c.N ≠ st.Nold ∨ c.dt ≠ st.dt ∨
        A.sA.evalAt ((st.t + c.dt / 2) / 2) ≠ st.sOld ∨
        A.hA.evalAt ((st.t + c.dt / 2) / 2) ≠ st.hOld) →
      (nomigApply A st c).Qm = st.Qm ∧ (nomigApply A st c).Mi = st.Mi) := by
  refine ⟨?_, ?_, ?_⟩
  · unfold nomigStep
    rw [hc]
    rfl
  · intro hcond
    simp only [nomigApply]
    rw [if_pos hcond]
    exact ⟨rfl, rfl⟩
  · intro hcond
    simp only [nomigApply]
    rw [if_neg hcond]
    exact ⟨rfl, rfl⟩

/-- Witness for C4 at the first iteration of a concrete call: `t = 0` forces
a rebuild, and the operators in use equal those built from the step's
parameters. -/
theorem claim_C4_witness :
    nomigCtrl c5Args c5St0 = .ok ⟨1 / 5, 100, 100, false⟩ ∧
    nomigStep c5Args c5St0 =
      .ok (nomigApply c5Args c5St0 ⟨1 / 5, 100, 100, false⟩) ∧
    (nomigApply c5Args c5St0 ⟨1 / 5, 100, 100, false⟩).Qm =
      (buildQS c5Args.vsM c5Args.vs2M (1 / 5) 100
        (c5Args.sA.evalAt ((c5St0.t + (1 / 5) / 2) / 2))
        (c5Args.hA.evalAt ((c5St0.t + (1 / 5) / 2) / 2))).1 := by
  have hc : nomigCtrl c5Args c5St0 = .ok ⟨1 / 5, 100, 100, false⟩ := by
    simp [nomigCtrl, ctrlCore, c5Args, c5St0, propose_dt, compute_dt]
    norm_num
  have h := claim_C4_rebuild_iff 2 c5Args c5St0 ⟨1 / 5, 100, 100, false⟩ hc
  exact ⟨hc, h.1, (h.2.1 (Or.inl rfl)).1⟩

/-- The clipped proposal is the minimum of the stability bound, the global
cap `Tmax * dt_fac`, and the remaining time. -/
theorem propose_dt_min3 (N s h Tmax dt_fac t : ℚ) :
    propose_dt N s h Tmax dt_fac t =
      min (min (compute_dt N s h) (Tmax * dt_fac)) (Tmax - t) := by
  unfold propose_dt
  by_cases hcl : Tmax < t + min (compute_dt N s h) (Tmax * dt_fac)
  · rw [if_pos hcl, min_eq_right]
    linarith
  · rw [if_neg hcl]
    exact (min_eq_left (by linarith [not_lt.mp hcl])).symm

/-- Under constant parameters, the `integrate_nomig` loop advances by
`min δ remaining` each step and lands exactly on the target time, given fuel
worth at least `Tmax` of accumulated steps. -/
theorem nomigLoop_const_reaches {d : ℕ} (A : Args d) (Nc s0 h0 : ℚ)
    (hNp : A.NpopA = .const Nc) (hs : A.sA = .const s0) (hh : A.hA = .const h0) :
    ∀ (fuel : ℕ) (st : St d), st.N = Nc → st.sOld = s0 → st.hOld = h0 →
      st.t ≤ A.Tmax →
      A.Tmax - st.t ≤ (fuel : ℚ) * min (compute_dt Nc s0 h0) (A.Tmax * A.dt_fac) →
      ∃ st', nomigLoop A fuel st = .ok st' ∧ st'.t = A.Tmax := by
  intro fuel
  induction fuel with
  | zero =>
    intro st _ _ _ hle hbound
    refine ⟨st, rfl, le_antisymm hle ?_⟩
    rw [Nat.cast_zero, zero_mul] at hbound
    linarith
  | succ fuel ih =>
    intro st hN hs0 hh0 hle hbound
    simp only [nomigLoop]
    by_cases hlt : st.t < A.Tmax
    · rw [if_pos hlt]
      have hctrl : nomigCtrl A st =
          .ok ⟨propose_dt st.N st.sOld st.hOld A.Tmax A.dt_fac st.t, st.N,
            st.Neff, false⟩ := by
        unfold nomigCtrl
        rw [hNp]
        rfl
      have hstep : nomigStep A st =
          .ok (nomigApply A st ⟨propose_dt st.N st.sOld st.hOld A.Tmax A.dt_fac
            st.t, st.N, st.Neff, false⟩) := by
        unfold nomigStep
        rw [hctrl]
        rfl
      rw [hstep]
      have hprop : propose_dt st.N st.sOld st.hOld A.Tmax A.dt_fac st.t =
          min (min (compute_dt Nc s0 h0) (A.Tmax * A.dt_fac)) (A.Tmax - st.t) := by
        rw [hN, hs0, hh0, propose_dt_min3]
      set δ := min (compute_dt Nc s0 h0) (A.Tmax * A.dt_fac) with hδdef
      set st' := nomigApply A st ⟨propose_dt st.N st.sOld st.hOld A.Tmax
        A.dt_fac st.t, st.N, st.Neff, false⟩ with hst'
      have ht' : st'.t = st.t + min δ (A.Tmax - st.t) := by
        rw [hst']
        simp only [nomigApply]
        rw [hprop]
      have hN' : st'.N = Nc := by rw [hst']; simpa [nomigApply] using hN
      have hs' : st'.sOld = s0 := by
        rw [hst']
        simp only [nomigApply]
        rw [hs]
        rfl
      have hh' : st'.hOld = h0 := by
        rw [hst']
        simp only [nomigApply]
        rw [hh]
        rfl
      by_cases hrem : A.Tmax - st.t ≤ δ
      · have htT : st'.t = A.Tmax := by
          rw [ht', min_eq_right hrem]
          ring
        refine ⟨st', ?_, htT⟩
        show (Except.ok st' >>= nomigLoop A fuel) = .ok st'
        exact nomigLoop_done A st' (by rw [htT]; exact lt_irrefl _) fuel
      · have hmin : min δ (A.Tmax - st.t) = δ := min_eq_left (le_of_not_le hrem)
        have hle' : st'.t ≤ A.Tmax := by
          rw [ht', hmin]
          linarith [lt_of_not_le hrem]
        have hbound' : A.Tmax - st'.t ≤ (fuel : ℚ) * δ := by
          rw [ht', hmin]
          push_cast at hbound
          linarith
        obtain ⟨st'', hrun, htT⟩ := ih st' hN' hs' hh' hle' hbound'
        exact ⟨st'', hrun, htT⟩
    · rw [if_neg hlt]
      exact ⟨st, rfl, le_antisymm hle (not_lt.mp hlt)⟩

/-- Counterexample to C5 as stated: at the first iteration of a reachable
`integrate_nomig` call (`Npop = 100`, `tf = 1`, `dt_fac = 0.1`, zero
selection, default dominance) the accepted step is `1/5` — the global cap
`Tmax * dt_fac` — which differs from the claimed
`min(compute_dt(N, s, h), T_remaining) = min(25, 2) = 2`. -/
theorem claim_C5_counterexample :
    nomigCtrl c5Args c5St0 = .ok ⟨1 / 5, 100, 100, false⟩ ∧
    (1 / 5 : ℚ) ≠
      min (compute_dt c5St0.N c5St0.sOld c5St0.hOld) (c5Args.Tmax - c5St0.t) := by
  constructor
  · simp [nomigCtrl, ctrlCore, c5Args, c5St0, propose_dt, compute_dt]
    norm_num
  · simp [c5Args, c5St0, compute_dt]
    norm_num

/-- C5 (amended): at every iteration the proposed step size equals the
minimum of the stability bound `compute_dt(N, s, h)`, the global cap
`Tmax * dt_fac`, and the remaining time to the target (so the final step is
clipped and the accumulated time never exceeds the target); and (for constant
parameters and sufficient fuel) the loop terminates with the accumulated time
exactly equal to the target `2 * tf`. -/
theorem claim_C5_amended_step_and_exit :
    (∀ N s h Tmax dt_fac t : ℚ,
      propose_dt N s h Tmax dt_fac t =
        min (min (compute_dt N s h) (Tmax * dt_fac)) (Tmax - t)) ∧
    (∀ (d : ℕ) ls cN (vsM vs2M : Mat d) cb sfs0 (N tf dt_fac s0 h0 th : ℚ) fg
        (tfd tbd : ℚ) (fuel : ℕ),
      0 < N →
      tf * 2 - 0 ≤ (fuel : ℚ) * min (compute_dt N s0 h0) (tf * 2 * dt_fac) →
      0 ≤ tf →
      ∃ st, integrate_nomig1_run d ls cN vsM vs2M cb sfs0 (.const N) tf dt_fac
        (some (.const s0)) (some (.const h0)) th fg tfd tbd false fuel =
        .ok st ∧ st.t = tf * 2) := by
  refine ⟨propose_dt_min3, ?_⟩
  intro d ls cN vsM vs2M cb sfs0 N tf dt_fac s0 h0 th fg tfd tbd fuel hN hfuel htf
  simp only [integrate_nomig1_run]
  have hfix : fixNp false (.const N) = Param.const N := rfl
  have hN0 : ¬ Param.evalAt (fixNp false (.const N)) 0 ≤ 0 := by
    rw [hfix]
    exact not_le.mpr hN
  rw [if_neg hN0]
  exact nomigLoop_const_reaches _ N s0 h0 rfl rfl rfl fuel _ rfl rfl rfl
    (by show (0 : ℚ) ≤ tf * 2; nlinarith)
    (by show tf * 2 - 0 ≤ (fuel : ℚ) * min (compute_dt N s0 h0) (tf * 2 * dt_fac)
        exact hfuel)

/-- Witness for the amended C5: a constant-size run (`N = 1`, `tf = 1/10`,
`dt_fac = 1/2`, fuel 3) ends with the accumulated time exactly `2 tf`. -/
theorem claim_C5_amended_witness :
    (0 : ℚ) < 1 ∧
    (1 / 10 : ℚ) * 2 - 0 ≤
      (3 : ℚ) * min (compute_dt 1 0 (1 / 2)) (1 / 10 * 2 * (1 / 2)) ∧
    (0 : ℚ) ≤ 1 / 10 ∧
    ∃ st, integrate_nomig1_run 2 (fun _ y => y) (fun _ _ _ => 1) 0 0
      (fun _ _ => 0) (fun _ => 1) (.const 1) (1 / 10) (1 / 2)
      (some (.const 0)) (some (.const (1 / 2))) 1 false 0 0 false 3 =
      .ok st ∧ st.t = 1 / 10 * 2 :=
  ⟨by norm_num, by norm_num [compute_dt, min_def], by norm_num,
    claim_C5_amended_step_and_exit.2 2 (fun _ y => y) (fun _ _ _ => 1) 0 0
      (fun _ _ => 0) (fun _ => 1) 1 (1 / 10) (1 / 2) 0 (1 / 2) 1 false 0 0 3
      (by norm_num) (by norm_num [compute_dt, min_def]) (by norm_num)⟩

/-- The proposed step is positive while the loop is live. -/
theorem propose_dt_pos {N s h Tmax dt_fac t : ℚ} (hN : 0 < N)
    (hfac : 0 < dt_fac) (ht0 : 0 ≤ t) (ht : t < Tmax) :
    0 < propose_dt N s h Tmax dt_fac t := by
  rw [propose_dt_min3]
  have hTm : 0 < Tmax := lt_of_le_of_lt ht0 ht
  exact lt_min (lt_min (compute_dt_pos hN) (mul_pos hTm hfac)) (by linarith)

/-- A zero mutation rate injects nothing. -/
theorem calcB1_zero (d : ℕ) : calcB1 d 0 = 0 := by
  funext i
  simp [calcB1]

/-- The frozen fix maps the zero selection argument to itself. -/
theorem fixS_zero (frozen : Bool) : fixS frozen (.const 0) = .const 0 := by
  cases frozen <;> simp [fixS]

/-- An explicit pure-drift half step preserves total mass. -/
theorem totalMass_expl {d : ℕ} (cc : ℚ) (x : Vec d) :
    totalMass ((1 + cc • calcD d).mulVec x) = totalMass x := by
  unfold totalMass
  rw [show ((1 + cc • calcD d).mulVec x) = x + cc • (calcD d).mulVec x by
    rw [Matrix.add_mulVec, Matrix.one_mulVec, Matrix.smul_mulVec_assoc]]
  simp only [Pi.add_apply]
  rw [Finset.sum_add_distrib]
  have : ∑ i, (cc • (calcD d).mulVec x) i = cc * ∑ i, (calcD d).mulVec x i := by
    simp [Finset.mul_sum]
  rw [this, sum_mulVec_colzero _ (calcD_colsum d) x, mul_zero, add_zero]

/-- An implicit pure-drift half step preserves total mass: any solution of
`(I - cc·vd) y = z` has the total mass of `z`. -/
theorem totalMass_impl {d : ℕ} (cc : ℚ) (y z : Vec d)
    (h : (1 - cc • calcD d).mulVec y = z) : totalMass y = totalMass z := by
  have hz : z = y - cc • (calcD d).mulVec y := by
    rw [← h, Matrix.sub_mulVec, Matrix.one_mulVec, Matrix.smul_mulVec_assoc]
  unfold totalMass
  rw [hz]
  simp only [Pi.sub_apply]
  rw [Finset.sum_sub_distrib]
  have : ∑ i, (cc • (calcD d).mulVec y) i = cc * ∑ i, (calcD d).mulVec y i := by
    simp [Finset.mul_sum]
  rw [this, sum_mulVec_colzero _ (calcD_colsum d) y, mul_zero, sub_zero]

/-- One live `integrate_nomig` iteration of the single-population
zero-selection zero-mutation infinite-sites run preserves the mass invariant. -/
theorem nomigStep_mass {d : ℕ} (A : Args d) (st : St d) (S0 : ℚ)
    (hpos : ∀ τ, 0 < A.NpopA.evalAt τ)
    (hcN : ∀ g a b, (∀ τ, 0 < g τ) → 0 < A.cNeff g a b)
    (hfg : A.fg = false) (hB : A.Bvec = 0) (hsA : A.sA = .const 0)
    (hsolve : ∀ (cc : ℚ) (y : Vec d), 0 ≤ cc →
      (1 - cc • calcD d).mulVec (A.lin_solve (1 - cc • calcD d) y) = y)
    (hfac : 0 < A.dt_fac) (hloop : st.t < A.Tmax)
    (hinv : massInv S0 st) :
    ∃ c, nomigStep A st = .ok (nomigApply A st c) ∧
      massInv S0 (nomigApply A st c) ∧ (nomigApply A st c).sOld = 0 := by
  obtain ⟨hN, ht0, hNe, ⟨cc, hcc, hQ, hM⟩, hmass⟩ := hinv
  obtain ⟨c, hc, hNc, hNec, hdtc⟩ :=
    ctrlCore_spec A.NpopA A.cNeff st.t st.Nold st.N st.Neff
      (propose_dt st.N st.sOld st.hOld A.Tmax A.dt_fac st.t) hpos
  have hdt2 : 0 < propose_dt st.N st.sOld st.hOld A.Tmax A.dt_fac st.t :=
    propose_dt_pos hN hfac ht0 hloop
  have hcdt : 0 < c.dt := hdtc hdt2
  have hcN' : 0 < c.N := hNc hN
  have hcNe : 0 < c.Neff := hNec ⟨hNe, hcN⟩
  have hstep : nomigStep A st = .ok (nomigApply A st c) := by
    unfold nomigStep nomigCtrl
    rw [hc]
    rfl
  refine ⟨c, hstep, ?_, ?_⟩
  · set sNew := A.sA.evalAt ((st.t + c.dt / 2) / 2) with hsNew
    have hsNew0 : sNew = 0 := by rw [hsNew, hsA]; rfl
    -- the operators after the (possible) rebuild
    have hops : ∃ cc' : ℚ, 0 ≤ cc' ∧
        (nomigApply A st c).Qm = 1 + cc' • calcD d ∧
        (nomigApply A st c).Mi = 1 - cc' • calcD d := by
      simp only [nomigApply]
      by_cases hcond : st.t = 0 ∨ c.N ≠ st.Nold ∨ c.dt ≠ st.dt ∨
          A.sA.evalAt ((st.t + c.dt / 2) / 2) ≠ st.sOld ∨
          A.hA.evalAt ((st.t + c.dt / 2) / 2) ≠ st.hOld
      · rw [if_pos hcond]
        refine ⟨c.dt / 2 * (1 / (4 * c.Neff)), by positivity, ?_, ?_⟩
        · show (buildQS A.vsM A.vs2M c.dt c.Neff _ _).1 = _
          unfold buildQS
          rw [show A.sA.evalAt ((st.t + c.dt / 2) / 2) = 0 from hsNew0]
          simp [smul_smul]
        · show (buildQS A.vsM A.vs2M c.dt c.Neff _ _).2 = _
          unfold buildQS
          rw [show A.sA.evalAt ((st.t + c.dt / 2) / 2) = 0 from hsNew0]
          simp [smul_smul]
      · rw [if_neg hcond]
        exact ⟨cc, hcc, hQ, hM⟩
    obtain ⟨cc', hcc', hQ', hM'⟩ := hops
    refine ⟨hcN', by simp only [nomigApply]; positivity, hcNe,
      ⟨cc', hcc', hQ', hM'⟩, ?_⟩
    -- mass preservation through the explicit and implicit half steps
    have hsfs : (nomigApply A st c).sfs =
        A.lin_solve (1 - cc' • calcD d)
          ((1 + cc' • calcD d).mulVec st.sfs) := by
      simp only [nomigApply] at hQ' hM' ⊢
      rw [hfg]
      simp only [Bool.false_eq_true, if_false]
      rw [hB, hQ', hM']
      simp
    rw [hsfs]
    rw [totalMass_impl cc' _ _ (hsolve cc' _ hcc'), totalMass_expl]
    exact hmass
  · simp only [nomigApply]
    rw [hsA]
    rfl

/-- The full zero-selection zero-mutation single-population run preserves the
mass invariant. -/
theorem nomigLoop_mass {d : ℕ} (A : Args d) (S0 : ℚ)
    (hpos : ∀ τ, 0 < A.NpopA.evalAt τ)
    (hcN : ∀ g a b, (∀ τ, 0 < g τ) → 0 < A.cNeff g a b)
    (hfg : A.fg = false) (hB : A.Bvec = 0) (hsA : A.sA = .const 0)
    (hsolve : ∀ (cc : ℚ) (y : Vec d), 0 ≤ cc →
      (1 - cc • calcD d).mulVec (A.lin_solve (1 - cc • calcD d) y) = y)
    (hfac : 0 < A.dt_fac) :
    ∀ (fuel : ℕ) (st : St d), massInv S0 st →
      ∃ st', nomigLoop A fuel st = .ok st' ∧ totalMass st'.sfs = S0 := by
  intro fuel
  induction fuel with
  | zero => exact fun st hinv => ⟨st, rfl, hinv.2.2.2.2⟩
  | succ fuel ih =>
    intro st hinv
    simp only [nomigLoop]
    by_cases hlt : st.t < A.Tmax
    · rw [if_pos hlt]
      obtain ⟨c, hstep, hinv', _⟩ :=
        nomigStep_mass A st S0 hpos hcN hfg hB hsA hsolve hfac hlt hinv
      rw [hstep]
      exact ih (nomigApply A st c) hinv'
    · rw [if_neg hlt]
      exact ⟨st, rfl, hinv.2.2.2.2⟩

/-- C3: for a single population with zero mutation rate and zero selection
coefficient (infinite-sites model), integrating for any target time
preserves the total mass of the spectrum exactly, and the mass gained by the
two monomorphic corner bins equals the mass lost by the polymorphic bins.
The external exact solver and effective-size collaborators enter as
hypotheses: the solver returns the exact solution of the pure-drift implicit
system, and the time-averaged effective size of a positive schedule is
positive. -/
theorem claim_C3_mass_conserved (d : ℕ)
    (ls : Mat d → Vec d → Vec d) (cN : (ℚ → ℚ) → ℚ → ℚ → ℚ)
    (vsM vs2M : Mat d) (cb : ℚ → ℚ → Mat d) (sfs0 : Vec d) (Npop : Param)
    (tf dt_fac : ℚ) (hA : Option Param) (tfd tbd : ℚ) (frozen : Bool)
    (fuel : ℕ) (hfac : 0 < dt_fac)
    (hpos : ∀ τ, 0 < Param.evalAt (fixNp frozen Npop) τ)
    (hcN : ∀ g a b, (∀ τ, 0 < g τ) → 0 < cN g a b)
    (hsolve : ∀ (cc : ℚ) (y : Vec d), 0 ≤ cc →
      (1 - cc • calcD d).mulVec (ls (1 - cc • calcD d) y) = y) :
    ∃ st, integrate_nomig1_run d ls cN vsM vs2M cb sfs0 Npop tf dt_fac
      (some (.const 0)) hA 0 false tfd tbd frozen fuel = .ok st ∧
      totalMass st.sfs = totalMass sfs0 ∧
      cornerMass st.sfs - cornerMass sfs0 =
        -(interiorMass st.sfs - interiorMass sfs0) := by
  simp only [integrate_nomig1_run]
  rw [if_neg (not_le.mpr (hpos 0))]
  have hB : calcB1 d (fixU frozen (0 / 4)) = 0 := by
    have : fixU frozen (0 / 4) = 0 := by cases frozen <;> simp [fixU]
    rw [this, calcB1_zero]
  obtain ⟨st', hrun, hmass⟩ :=
    nomigLoop_mass
      { NpopA := fixNp frozen Npop, sA := fixS frozen (.const 0),
        hA := hA.getD (.const (1 / 2)), Tmax := tf * 2, dt_fac := dt_fac,
        fg := false, Bvec := calcB1 d (fixU frozen (0 / 4)),
        Bfb := if false then cb (fixU frozen (0 / 4))
          (fixV frozen false (tbd / 4)) else 0,
        vsM := vsM, vs2M := vs2M, lin_solve := ls, cNeff := cN }
      (totalMass sfs0) hpos hcN rfl hB (fixS_zero frozen) hsolve hfac fuel
      { t := 0, dt := tf * 2 * dt_fac,
        N := Param.evalAt (fixNp frozen Npop) 0,
        Nold := Param.evalAt (fixNp frozen Npop) 0,
        Neff := Param.evalAt (fixNp frozen Npop) 0,
        sOld := Param.evalAt (fixS frozen (.const 0)) 0,
        hOld := Param.evalAt (hA.getD (.const (1 / 2))) 0, Qm := 1, Mi := 1,
        sfs := sfs0, warned := false }
      ⟨hpos 0, le_refl 0, hpos 0,
        ⟨0, le_refl 0, by simp, by simp⟩, rfl⟩
  refine ⟨st', hrun, hmass, ?_⟩
  unfold interiorMass
  rw [hmass]
  ring

/-- At two bins both corner coefficients vanish, so the modelled drift
operator is zero. -/
theorem calcD_two : calcD 2 = 0 := by
  unfold calcD
  refine Finset.sum_eq_zero fun k _ => ?_
  rw [dif_neg]
  have := k.isLt
  omega

/-- Witness for C3: a concrete two-bin run with unit size, zero mutation and
zero selection keeps the total mass of the spectrum `(3, 5)`. -/
theorem claim_C3_witness :
    (0 : ℚ) < 1 / 2 ∧
    (∀ τ : ℚ, 0 < Param.evalAt (fixNp false (.const 1)) τ) ∧
    (∀ (g : ℚ → ℚ) (a b : ℚ), (∀ τ, 0 < g τ) →
      0 < (fun (_ : ℚ → ℚ) (_ _ : ℚ) => (1 : ℚ)) g a b) ∧
    (∀ (cc : ℚ) (y : Vec 2), 0 ≤ cc →
      (1 - cc • calcD 2).mulVec
        ((fun (_ : Mat 2) (y : Vec 2) => y) (1 - cc • calcD 2) y) = y) ∧
    ∃ st, integrate_nomig1_run 2 (fun _ y => y) (fun _ _ _ => 1) 0 0
      (fun _ _ => 0) (fun i => if (i : ℕ) = 0 then 3 else 5) (.const 1) 1
      (1 / 2) (some (.const 0)) none 0 false 0 0 false 20 = .ok st ∧
      totalMass st.sfs =
        totalMass (fun i : Fin 2 => if (i : ℕ) = 0 then (3 : ℚ) else 5) ∧
      cornerMass st.sfs -
          cornerMass (fun i : Fin 2 => if (i : ℕ) = 0 then (3 : ℚ) else 5) =
        -(interiorMass st.sfs -
          interiorMass (fun i : Fin 2 => if (i : ℕ) = 0 then (3 : ℚ) else 5)) :=
  ⟨by norm_num, fun τ => by simp [fixNp, Param.evalAt],
    fun g a b _ => by norm_num,
    fun cc y _ => by rw [calcD_two]; simp [Matrix.one_mulVec],
    claim_C3_mass_conserved 2 (fun _ y => y) (fun _ _ _ => 1) 0 0 (fun _ _ => 0)
      (fun i => if (i : ℕ) = 0 then 3 else 5) (.const 1) 1 (1 / 2) none 0 0
      false 20 (by norm_num) (fun τ => by simp [fixNp, Param.evalAt])
      (fun g a b _ => by norm_num)
      (fun cc y _ => by rw [calcD_two]; simp [Matrix.one_mulVec])⟩

/-- With zero selection the step proposal does not depend on the dominance
value. -/
theorem propose_dt_zero_s (N hc Tmax dt_fac t : ℚ) :
    propose_dt N 0 hc Tmax dt_fac t = propose_dt N 0 (1 / 2) Tmax dt_fac t := by
  unfold propose_dt
  rw [compute_dt_zero_s N hc (1 / 2)]

/-- With zero selection the nomig operator build degenerates to the
pure-drift Crank-Nicolson pair. -/
theorem buildQS_zero_sel {d : ℕ} (vsM vs2M : Mat d) (dt Neff hNw : ℚ) :
    (buildQS vsM vs2M dt Neff 0 hNw).1 =
      1 + (dt / 2 * (1 / (4 * Neff))) • calcD d ∧
    (buildQS vsM vs2M dt Neff 0 hNw).2 =
      1 - (dt / 2 * (1 / (4 * Neff))) • calcD d := by
  unfold buildQS
  constructor <;> simp [smul_smul]

/-- The neutral path's tridiagonal bands assemble to the same implicit
pure-drift matrix that the nomig path factorizes. -/
theorem neutral_bands_eq {d : ℕ} (dt Neff : ℚ) :
    tridiagOf (fun i => -(dt / 2) * (1 / (4 * Neff)) * lowerOf (calcD d) i)
      (fun i => 1 - dt / 2 * (1 / (4 * Neff)) * calcD d i i)
      (fun i => -(dt / 2) * (1 / (4 * Neff)) * upperOf (calcD d) i) =
    1 - (dt / 2 * (1 / (4 * Neff))) • calcD d := by
  have h := tridiagOf_extract (calcD d) (fun i j hf => calcD_apply_far i j hf)
    (dt / 2 * (1 / (4 * Neff)))
  rw [show (fun i => -(dt / 2) * (1 / (4 * Neff)) * lowerOf (calcD d) i) =
      (fun i => -(dt / 2 * (1 / (4 * Neff))) * lowerOf (calcD d) i) from
      funext fun i => by ring,
    show (fun i => 1 - dt / 2 * (1 / (4 * Neff)) * calcD d i i) =
      (fun i => 1 - dt / 2 * (1 / (4 * Neff)) * calcD d i i) from rfl,
    show (fun i => -(dt / 2) * (1 / (4 * Neff)) * upperOf (calcD d) i) =
      (fun i => -(dt / 2 * (1 / (4 * Neff))) * upperOf (calcD d) i) from
      funext fun i => by ring]
  exact h

/-- One-step simulation: under zero selection and constant dominance, an
`integrate_nomig` iteration and an `integrate_neutral` iteration with shared
inputs either raise the same error or produce related states. -/
theorem stepSim {d : ℕ} (A : Args d) (An : ArgsN d) (hc : ℚ)
    (hNp : A.NpopA = An.NpopA) (hTm : A.Tmax = An.Tmax)
    (hfac : A.dt_fac = An.dt_fac) (hfgA : A.fg = false) (hfgN : An.fg = false)
    (hBv : A.Bvec = An.Bvec) (hls : A.lin_solve = An.lin_solve)
    (hcNf : A.cNeff = An.cNeff) (hsA : A.sA = .const 0) (hhA : A.hA = .const hc)
    (st : St d) (stn : StN d) (hrel : simRel hc st stn) :
    (∃ e, nomigStep A st = .error e ∧ neutralStep An stn = .error e) ∨
    (∃ c, nomigStep A st = .ok (nomigApply A st c) ∧
      neutralStep An stn = .ok (neutralApply An stn c) ∧
      simRel hc (nomigApply A st c) (neutralApply An stn c)) := by
  obtain ⟨ht, hdt, hN, hNold, hNeff, hsfs, hw, hsOld, hhOld, hQm, hMi⟩ := hrel
  have hctrl : nomigCtrl A st = neutralCtrl An stn := by
    unfold nomigCtrl neutralCtrl
    rw [hNp, hTm, hfac, hcNf, ht, hN, hNold, hNeff, hsOld, hhOld,
      propose_dt_zero_s]
  cases hcase : neutralCtrl An stn with
  | error e =>
    left
    refine ⟨e, ?_, ?_⟩
    · unfold nomigStep
      rw [hctrl, hcase]
      rfl
    · unfold neutralStep
      rw [hcase]
      rfl
  | ok c =>
    right
    refine ⟨c, ?_, ?_, ?_⟩
    · unfold nomigStep
      rw [hctrl, hcase]
      rfl
    · unfold neutralStep
      rw [hcase]
      rfl
    · -- relate the two updated states
      have hsNw : A.sA.evalAt ((st.t + c.dt / 2) / 2) = 0 := by rw [hsA]; rfl
      have hhNw : A.hA.evalAt ((st.t + c.dt / 2) / 2) = hc := by rw [hhA]; rfl
      have hcond : (st.t = 0 ∨ c.N ≠ st.Nold ∨ c.dt ≠ st.dt ∨
          A.sA.evalAt ((st.t + c.dt / 2) / 2) ≠ st.sOld ∨
          A.hA.evalAt ((st.t + c.dt / 2) / 2) ≠ st.hOld) ↔
          (stn.t = 0 ∨ c.N ≠ stn.Nold ∨ c.dt ≠ stn.dt) := by
        rw [hsNw, hhNw, hsOld, hhOld, ht, hNold, hdt]
        constructor
        · rintro (h | h | h | h | h)
          · exact Or.inl h
          · exact Or.inr (Or.inl h)
          · exact Or.inr (Or.inr h)
          · exact absurd rfl h
          · exact absurd rfl h
        · rintro (h | h | h)
          · exact Or.inl h
          · exact Or.inr (Or.inl h)
          · exact Or.inr (Or.inr (Or.inl h))
      by_cases hrb : stn.t = 0 ∨ c.N ≠ stn.Nold ∨ c.dt ≠ stn.dt
      · -- both sides rebuild from the step's parameters
        have hQeq : (nomigApply A st c).Qm = (neutralApply An stn c).Qm := by
          simp only [nomigApply, neutralApply]
          rw [if_pos (hcond.mpr hrb), if_pos hrb, hsNw]
          rw [(buildQS_zero_sel A.vsM A.vs2M c.dt c.Neff _).1, smul_smul]
        have hMeq : (nomigApply A st c).Mi =
            tridiagOf (neutralApply An stn c).aD (neutralApply An stn c).dD
              (neutralApply An stn c).cD := by
          simp only [nomigApply, neutralApply]
          rw [if_pos (hcond.mpr hrb), if_pos hrb, hsNw]
          rw [(buildQS_zero_sel A.vsM A.vs2M c.dt c.Neff _).2, neutral_bands_eq]
        refine ⟨by simp [nomigApply, neutralApply, ht], by simp [nomigApply, neutralApply],
          by simp [nomigApply, neutralApply], by simp [nomigApply, neutralApply],
          by simp [nomigApply, neutralApply], ?_, by simp [nomigApply, neutralApply, hw],
          by simp [nomigApply]; rw [hsA]; rfl, by simp [nomigApply]; rw [hhA]; rfl,
          hQeq, hMeq⟩
        -- the updated spectra agree
        simp only [nomigApply, neutralApply]
        rw [hfgA, hfgN]
        simp only [Bool.false_eq_true, if_false]
        rw [if_pos (hcond.mpr hrb), if_pos hrb, hsNw,
          (buildQS_zero_sel A.vsM A.vs2M c.dt c.Neff _).1,
          (buildQS_zero_sel A.vsM A.vs2M c.dt c.Neff _).2, neutral_bands_eq,
          smul_smul, hls, hBv, hsfs]
      · -- both sides reuse the cached operators
        have hQeq : (nomigApply A st c).Qm = (neutralApply An stn c).Qm := by
          simp only [nomigApply, neutralApply]
          rw [if_neg (fun h => hrb (hcond.mp h)), if_neg hrb]
          exact hQm
        have hMeq : (nomigApply A st c).Mi =
            tridiagOf (neutralApply An stn c).aD (neutralApply An stn c).dD
              (neutralApply An stn c).cD := by
          simp only [nomigApply, neutralApply]
          rw [if_neg (fun h => hrb (hcond.mp h)), if_neg hrb]
          exact hMi
        refine ⟨by simp [nomigApply, neutralApply, ht], by simp [nomigApply, neutralApply],
          by simp [nomigApply, neutralApply], by simp [nomigApply, neutralApply],
          by simp [nomigApply, neutralApply], ?_, by simp [nomigApply, neutralApply, hw],
          by simp [nomigApply]; rw [hsA]; rfl, by simp [nomigApply]; rw [hhA]; rfl,
          hQeq, hMeq⟩
        simp only [nomigApply, neutralApply]
        rw [hfgA, hfgN]
        simp only [Bool.false_eq_true, if_false]
        rw [if_neg (fun h => hrb (hcond.mp h)), if_neg hrb, hQm, hMi, hls, hBv,
          hsfs]

/-- Whole-loop simulation: related states stay related (or fail with the same
error) for any fuel. -/
theorem loopSim {d : ℕ} (A : Args d) (An : ArgsN d) (hc : ℚ)
    (hNp : A.NpopA = An.NpopA) (hTm : A.Tmax = An.Tmax)
    (hfac : A.dt_fac = An.dt_fac) (hfgA : A.fg = false) (hfgN : An.fg = false)
    (hBv : A.Bvec = An.Bvec) (hls : A.lin_solve = An.lin_solve)
    (hcNf : A.cNeff = An.cNeff) (hsA : A.sA = .const 0) (hhA : A.hA = .const hc) :
    ∀ (fuel : ℕ) (st : St d) (stn : StN d), simRel hc st stn →
      (∃ e, nomigLoop A fuel st = .error e ∧
        neutralLoop An fuel stn = .error e) ∨
      (∃ st' stn', nomigLoop A fuel st = .ok st' ∧
        neutralLoop An fuel stn = .ok stn' ∧ simRel hc st' stn') := by
  intro fuel
  induction fuel with
  | zero => exact fun st stn hrel => Or.inr ⟨st, stn, rfl, rfl, hrel⟩
  | succ fuel ih =>
    intro st stn hrel
    have hlt : (st.t < A.Tmax) ↔ (stn.t < An.Tmax) := by rw [hrel.1, hTm]
    simp only [nomigLoop, neutralLoop]
    by_cases hl : stn.t < An.Tmax
    · rw [if_pos (hlt.mpr hl), if_pos hl]
      rcases stepSim A An hc hNp hTm hfac hfgA hfgN hBv hls hcNf hsA hhA st stn
        hrel with ⟨e, he1, he2⟩ | ⟨c, h1, h2, hrel'⟩
      · rw [he1, he2]
        exact Or.inl ⟨e, rfl, rfl⟩
      · rw [h1, h2]
        exact ih _ _ hrel'
    · rw [if_neg (fun h => hl (hlt.mp h)), if_neg hl]
      exact Or.inr ⟨st, stn, rfl, rfl, hrel⟩

/-- C2: with zero selection coefficients (and any constant dominance), the
general sparse-path integrator `integrate_nomig` and the tridiagonal
fast-path integrator `integrate_neutral` produce exactly the same evolved
spectrum in exact arithmetic on the same input tensor, size schedule, target
time, step factor, mutation rate and frozen flag — both implement the same
pure-drift-plus-mutation Crank-Nicolson discretization, solved by the same
exact linear solver. -/
theorem claim_C2_neutral_fast_path_equiv (d : ℕ)
    (ls : Mat d → Vec d → Vec d) (cN : (ℚ → ℚ) → ℚ → ℚ → ℚ)
    (vsM vs2M : Mat d) (cb : ℚ → ℚ → Mat d) (sfs0 : Vec d) (Npop : Param)
    (tf dt_fac hcv theta tfd tbd : ℚ) (frozen : Bool) (fuel : ℕ) :
    integrate_nomig1 d ls cN vsM vs2M cb sfs0 Npop tf dt_fac
      (some (.const 0)) (some (.const hcv)) theta false tfd tbd frozen fuel =
    integrate_neutral1 d ls cN cb sfs0 Npop tf dt_fac theta false tfd tbd
      frozen fuel := by
  unfold integrate_nomig1 integrate_neutral1
  simp only [integrate_nomig1_run, integrate_neutral1_run]
  by_cases h0 : Param.evalAt (fixNp frozen Npop) 0 ≤ 0
  · rw [if_pos h0, if_pos h0]
    rfl
  · rw [if_neg h0, if_neg h0]
    simp only [Bool.false_eq_true, if_false]
    have hsA : fixS frozen ((some (Param.const 0)).getD (.const 0)) =
        Param.const 0 := fixS_zero frozen
    rcases loopSim
        { NpopA := fixNp frozen Npop,
          sA := fixS frozen ((some (Param.const 0)).getD (.const 0)),
          hA := (some (Param.const hcv)).getD (.const (1 / 2)),
          Tmax := tf * 2, dt_fac := dt_fac, fg := false,
          Bvec := calcB1 d (fixU frozen (theta / 4)), Bfb := 0,
          vsM := vsM, vs2M := vs2M, lin_solve := ls, cNeff := cN }
        { NpopA := fixNp frozen Npop, Tmax := tf * 2, dt_fac := dt_fac,
          fg := false, Bvec := calcB1 d (fixU frozen (theta / 4)), Bfb := 0,
          lin_solve := ls, cNeff := cN }
        hcv rfl rfl rfl rfl rfl rfl rfl rfl hsA rfl fuel
        { t := 0, dt := tf * 2 * dt_fac,
          N := Param.evalAt (fixNp frozen Npop) 0,
          Nold := Param.evalAt (fixNp frozen Npop) 0,
          Neff := Param.evalAt (fixNp frozen Npop) 0,
          sOld := Param.evalAt
            (fixS frozen ((some (Param.const 0)).getD (.const 0))) 0,
          hOld := Param.evalAt
            ((some (Param.const hcv)).getD (.const (1 / 2))) 0,
          Qm := 1, Mi := 1, sfs := sfs0, warned := false }
        { t := 0, dt := tf * 2 * dt_fac,
          N := Param.evalAt (fixNp frozen Npop) 0,
          Nold := Param.evalAt (fixNp frozen Npop) 0,
          Neff := Param.evalAt (fixNp frozen Npop) 0,
          Qm := 1, aD := fun _ => 0, dD := fun _ => 1, cD := fun _ => 0,
          sfs := sfs0, warned := false }
        ⟨rfl, rfl, rfl, rfl, rfl, rfl, rfl, by rw [hsA]; rfl, rfl, rfl,
          tridiagOf_init.symm⟩ with
      ⟨e, he1, he2⟩ | ⟨st', stn', h1, h2, hrel'⟩
    · rw [he1, he2]
      rfl
    · rw [h1, h2]
      show Except.ok st'.sfs = Except.ok stn'.sfs
      rw [hrel'.2.2.2.2.2.1]
